import Mathlib

/-!
Verification of the password-policy engine (validator, generator, fixer).

The JavaScript modules `lib/validator.js` and the generator/fixer module are
shallowly embedded below.  A JS string is modeled as the list of its Unicode
code points (`JsStr`); `.length` of a JS string is the UTF-16 code-unit count,
modeled by `utf16Len`, while array operations on `[...password]` work on the
code-point list itself.  The `Map` of character counts is modeled as a
function `Char → Nat`, updated in lock-step exactly as the code updates the
map.  Cryptographic randomness is modeled by an oracle `Rng` supplying the
stream of raw 32-bit draws; every theorem quantifies over the oracle.
-/

namespace PasswordPolicy

/-- A JS string, as its sequence of Unicode code points. -/
abbrev JsStr := List Char

/-- Number of UTF-16 code units a single code point occupies. -/
def utf16Size (c : Char) : Nat := if c.toNat < 65536 then 1 else 2

/-- JS `String.prototype.length`: the UTF-16 code-unit count. -/
def utf16Len (s : JsStr) : Nat := (s.map utf16Size).sum

/-- The character-count map (`Map<string, number>` with `get(ch) || 0`). -/
abbrev Counts := Char → Nat

/-- `counts.set(ch, (counts.get(ch) || 0) + 1)`. -/
def incr (counts : Counts) (ch : Char) : Counts :=
  fun c => if c = ch then counts ch + 1 else counts c

/-- `counts.set(ch, (counts.get(ch) || 1) - 1)`; on `Nat` the `|| 1` guard
against going below zero coincides with truncated subtraction. -/
def decr (counts : Counts) (ch : Char) : Counts :=
  fun c => if c = ch then counts ch - 1 else counts c

/-- `countChars` from validator.js: fold over the code points. -/
def countChars (password : JsStr) : Counts :=
  password.foldl incr (fun _ => 0)

/-- The distinct characters of a string in first-occurrence order; this is
the key-iteration order of the JS `Map` produced by `countChars`. -/
def distinctChars (s : JsStr) : JsStr :=
  s.foldl (fun acc ch => if ch ∈ acc then acc else acc ++ [ch]) []

/-- `SPECIAL_CHARS` from validator.js. -/
def SPECIAL_CHARS : JsStr := "#?!@$%^&*-".data

/-- `CHAR_CLASSES.uppercase`. -/
def uppercaseChars : JsStr := "ABCDEFGHIJKLMNOPQRSTUVWXYZ".data

/-- `CHAR_CLASSES.lowercase`. -/
def lowercaseChars : JsStr := "abcdefghijklmnopqrstuvwxyz".data

/-- `CHAR_CLASSES.digit`. -/
def digitChars : JsStr := "0123456789".data

/-- The five character classes of `classifyChar`. -/
inductive CharClass where
  | uppercase
  | lowercase
  | digit
  | special
  | unknown
deriving DecidableEq, Repr

/-- `classifyChar` from validator.js.  JS compares one-code-point strings,
which for these ASCII bounds coincides with comparing code points. -/
def classifyChar (ch : Char) : CharClass :=
  if 'A' ≤ ch ∧ ch ≤ 'Z' then .uppercase
  else if 'a' ≤ ch ∧ ch ≤ 'z' then .lowercase
  else if '0' ≤ ch ∧ ch ≤ '9' then .digit
  else if ch ∈ SPECIAL_CHARS then .special
  else .unknown

/-- One entry of `validate(...).rules`.  The human-readable `description`
and the display-only `detail` string are presentational and not modeled. -/
structure Rule where
  id : Nat
  name : String
  pass : Bool
deriving DecidableEq, Repr

/-- The result record of `validate`. -/
structure ValidationResult where
  overall : Bool
  rules : List Rule
deriving DecidableEq, Repr

/-- The rule-6 violators: characters occurring more than twice, in the
first-occurrence (JS `Map` insertion) order of `countChars`. -/
def violatorsOf (password : JsStr) : List (Char × Nat) :=
  (distinctChars password).filterMap fun ch =>
    if 2 < countChars password ch then some (ch, countChars password ch) else none

/-- `validate` from validator.js.  Rule 1 uses the JS string `.length`
(UTF-16 code units); rules 2-5 are the regex tests, which for these ASCII
classes are equivalent to a code-point scan; rule 6 checks the violator
list computed from `countChars`. -/
def validate (password : JsStr) : ValidationResult :=
  let rules : List Rule :=
    [ ⟨1, "minLength", decide (8 ≤ utf16Len password)⟩,
      ⟨2, "uppercase", password.any fun c => decide ('A' ≤ c ∧ c ≤ 'Z')⟩,
      ⟨3, "lowercase", password.any fun c => decide ('a' ≤ c ∧ c ≤ 'z')⟩,
      ⟨4, "special", password.any fun c => decide (c ∈ SPECIAL_CHARS)⟩,
      ⟨5, "digit", password.any fun c => decide ('0' ≤ c ∧ c ≤ '9')⟩,
      ⟨6, "maxRepeat", decide (violatorsOf password = [])⟩ ]
  ⟨rules.all (fun r => r.pass), rules⟩

example : (validate "Abcdef1#".data).overall = true := by decide

example : (validate "aaa".data).overall = false := by decide

example : (validate "Ab1!xyzw".data).rules.all (fun r => r.pass) = true := by decide

/-- Randomness oracle.  `val k` is the k-th raw `Uint32` draw of
`crypto.getRandomValues`; `sortPick k` selects (mod 24) the permutation of
`[0, 1, 2, 3]` produced by the k-th `Array.prototype.sort` call made with
the random, inconsistent comparator in `pickAnyAvailable` (ECMAScript
leaves that order implementation-defined, so it is an oracle input). -/
structure Rng where
  val : Nat → Nat
  sortPick : Nat → Nat

/-- A concrete oracle instance used in witnesses and counterexamples. -/
def g0 : Rng := ⟨fun _ => 0, fun _ => 0⟩

/-- A second concrete oracle whose draws vary with the counter. -/
def g1 : Rng := ⟨fun k => k, fun _ => 0⟩

/-- `secureRandomInt(max)` from generator.js: one raw draw reduced mod 2^32
(it is read from a `Uint32Array`), then `% max`.  The draw counter is
threaded explicitly through all randomized functions. -/
def secureRandomInt (g : Rng) (k max : Nat) : Nat := g.val k % 2 ^ 32 % max

/-- `randomChar(chars)`: `chars[secureRandomInt(chars.length)]`.  The code
never calls this with an empty pool, so the default is unreachable. -/
def randomChar (g : Rng) (k : Nat) (chars : JsStr) : Char × Nat :=
  (chars.getD (secureRandomInt g k chars.length) 'A', k + 1)

/-- The destructuring swap `[arr[i], arr[j]] = [arr[j], arr[i]]`. -/
def swapAt (l : JsStr) (i j : Nat) : JsStr :=
  let a := l.getD i 'A'
  let b := l.getD j 'A'
  (l.set i b).set j a

/-- The Fisher-Yates loop of `shuffle`, running indices `i, i-1, ..., 1`
(the argument is the current index; at 0 the loop has ended). -/
def shuffleFrom (g : Rng) : JsStr → Nat → Nat → JsStr × Nat
  | l, k, 0 => (l, k)
  | l, k, i + 1 =>
    let j := secureRandomInt g k (i + 2)
    shuffleFrom g (swapAt l (i + 1) j) (k + 1) i

/-- The full candidate pool of `generate`: the four class alphabets
concatenated. -/
def fullPool : JsStr := uppercaseChars ++ lowercaseChars ++ digitChars ++ SPECIAL_CHARS

/-- The length clamp of `generate`: `Math.max(8, Math.min(40, length))`. -/
def clampLength (n : Int) : Nat := (max 8 (min 40 n)).toNat

/-- The result record of `generate`. -/
structure GenerateResult where
  password : JsStr
  valid : Bool
deriving DecidableEq, Repr

/-- The inner rejection-sampling loop of `generate`: up to 100 draws from
the pool, accepting the first character whose running count is below 2. -/
def drawLoop (g : Rng) (counts : Counts) : Nat → Nat → Option Char × Nat
  | k, 0 => (none, k)
  | k, tries + 1 =>
    let d := randomChar g k fullPool
    if counts d.1 < 2 then (some d.1, d.2) else drawLoop g counts d.2 tries

/-- The slot-filling loop of `generate`: `rem` remaining iterations of
`for (let i = chars.length; i < length; i++)`.  Each iteration adds at most
one character: a successful random draw, else the first pool character with
count below 2, else nothing. -/
def fillLoop (g : Rng) : Nat → Nat → JsStr → Counts → JsStr × Counts × Nat
  | k, 0, chars, counts => (chars, counts, k)
  | k, rem + 1, chars, counts =>
    let d := drawLoop g counts k 100
    match d.1 with
    | some ch => fillLoop g d.2 rem (chars ++ [ch]) (incr counts ch)
    | none =>
      match fullPool.find? (fun ch => decide (counts ch < 2)) with
      | some ch => fillLoop g d.2 rem (chars ++ [ch]) (incr counts ch)
      | none => fillLoop g d.2 rem chars counts

/-- One attempt of `generate`: seed one character from each class, fill the
remaining `length - 4` slots, then shuffle. -/
def genAttempt (g : Rng) (k : Nat) (length : Nat) : JsStr × Nat :=
  let u := randomChar g k uppercaseChars
  let lo := randomChar g u.2 lowercaseChars
  let d := randomChar g lo.2 digitChars
  let sp := randomChar g d.2 SPECIAL_CHARS
  let chars : JsStr := [u.1, lo.1, d.1, sp.1]
  let counts := incr (incr (incr (incr (fun _ => 0) u.1) lo.1) d.1) sp.1
  let f := fillLoop g sp.2 (length - 4) chars counts
  shuffleFrom g f.1 f.2.2 (f.1.length - 1)

/-- The 10-attempt loop of `generate`; on fuel exhaustion it returns the
explicit defensive fallback `{ password: '', valid: false }`. -/
def generateLoop (g : Rng) : Nat → Nat → Nat → GenerateResult × Nat
  | k, _, 0 => (⟨[], false⟩, k)
  | k, len, fuel + 1 =>
    let a := genAttempt g k len
    if (validate a.1).overall then (⟨a.1, true⟩, a.2) else generateLoop g a.2 len fuel

/-- `generate(length)` from generator.js (the JS default argument is 24). -/
def generate (g : Rng) (n : Int) : GenerateResult :=
  (generateLoop g 0 (clampLength n) 10).1

/-- Number of attempts `generate` performs (mirror of `generateLoop`). -/
def genAttemptsAux (g : Rng) : Nat → Nat → Nat → Nat
  | _, _, 0 => 0
  | k, len, fuel + 1 =>
    let a := genAttempt g k len
    if (validate a.1).overall then 1 else 1 + genAttemptsAux g a.2 len fuel

/-- Number of attempts performed by `generate g n`. -/
def genAttempts (g : Rng) (n : Int) : Nat := genAttemptsAux g 0 (clampLength n) 10

set_option maxHeartbeats 1000000 in
example : (generate g1 24).valid = true ∧ (generate g1 24).password.length = 24 := by decide

set_option maxHeartbeats 1000000 in
example : (generate g1 3).password.length = 8 := by decide

/-- `pickAvailable(pool, counts)` from the fixer: a uniform pick among the
pool characters with count below 2, or `null`.  A `null` result consumes no
random draw. -/
def pickAvailable (g : Rng) (k : Nat) (pool : JsStr) (counts : Counts) :
    Option Char × Nat :=
  let candidates := pool.filter fun ch => decide (counts ch < 2)
  if candidates.isEmpty then (none, k)
  else (some (candidates.getD (secureRandomInt g k candidates.length) 'A'), k + 1)

/-- `allPools` from `pickAnyAvailable`. -/
def allPools : List JsStr := [uppercaseChars, lowercaseChars, digitChars, SPECIAL_CHARS]

/-- The 24 permutations of `[0, 1, 2, 3]`; the oracle's `sortPick` chooses
which of them a given randomized `sort` call produces. -/
def perms4 : List (List Nat) :=
  [ [0, 1, 2, 3], [0, 1, 3, 2], [0, 2, 1, 3], [0, 2, 3, 1], [0, 3, 1, 2], [0, 3, 2, 1],
    [1, 0, 2, 3], [1, 0, 3, 2], [1, 2, 0, 3], [1, 2, 3, 0], [1, 3, 0, 2], [1, 3, 2, 0],
    [2, 0, 1, 3], [2, 0, 3, 1], [2, 1, 0, 3], [2, 1, 3, 0], [2, 3, 0, 1], [2, 3, 1, 0],
    [3, 0, 1, 2], [3, 0, 2, 1], [3, 1, 0, 2], [3, 1, 2, 0], [3, 2, 0, 1], [3, 2, 1, 0] ]

/-- The pool order produced by `[0,1,2,3].sort(() => secureRandomInt(3) - 1)`.
The comparator is inconsistent, so ECMAScript leaves the resulting order
implementation-defined; the oracle supplies it (one counter tick). -/
def classOrder (g : Rng) (k : Nat) : List Nat :=
  perms4.getD (g.sortPick k % 24) [0, 1, 2, 3]

/-- The scan of `pickAnyAvailable` over the pools in the shuffled order. -/
def pickAnyGo (g : Rng) (counts : Counts) : List Nat → Nat → Option Char × Nat
  | [], k => (none, k)
  | i :: rest, k =>
    let p := pickAvailable g k (allPools.getD i []) counts
    match p.1 with
    | some ch => (some ch, p.2)
    | none => pickAnyGo g counts rest p.2

/-- `pickAnyAvailable(counts)` from the fixer. -/
def pickAnyAvailable (g : Rng) (k : Nat) (counts : Counts) : Option Char × Nat :=
  pickAnyGo g counts (classOrder g k) (k + 1)

/-- `getPool(className)`: `CHAR_CLASSES[className] || ''`. -/
def getPool : CharClass → JsStr
  | .uppercase => uppercaseChars
  | .lowercase => lowercaseChars
  | .digit => digitChars
  | .special => SPECIAL_CHARS
  | .unknown => []

/-- A JS value as it appears in a change's `from` field: a (possibly
empty) string, or `undefined`. -/
inductive JsVal where
  | undef
  | str (s : JsStr)
deriving DecidableEq, Repr

/-- One entry of `FixResult.changes`.  `from'` is `.str [c]` for a
substitution, `.str []` for an append, and `.undef` in the degenerate
empty-input case where the code reads `chars[-1]` before any write. -/
structure Change where
  index : Int
  from' : JsVal
  to' : Char
deriving DecidableEq, Repr

/-- The record returned by `fix` and `tryFix`. -/
structure FixResult where
  original : JsStr
  fixed : JsStr
  changes : List Change
  valid : Bool
deriving DecidableEq, Repr

/-- The mutable state of one `tryFix` attempt.  `neg` models the JS array
property at index `-1`: `chars[-1] = x` stores `x` without changing the
array elements or length, and a later `chars[-1]` read returns it; only
the phase-2 fallback position `chars.length - 1` of an empty array ever
reaches that slot. -/
structure FixState where
  chars : JsStr
  neg : JsVal
  counts : Counts
  changes : List Change

/-- Positions of `ch` in ascending order, starting from offset `i`. -/
def idxAscend (ch : Char) : JsStr → Nat → List Nat
  | [], _ => []
  | c :: rest, i =>
    if c = ch then i :: idxAscend ch rest (i + 1) else idxAscend ch rest (i + 1)

/-- Phase 1's index collection: all positions holding `ch`, scanning from
the end of the string backward. -/
def revIndicesOf (chars : JsStr) (ch : Char) : List Nat :=
  (idxAscend ch chars 0).reverse

/-- The phase-1 violator list: `(ch, excess)` for every character whose
initial count exceeds 2, in `Map` insertion order. -/
def violatorsExcess (password : JsStr) : List (Char × Nat) :=
  (distinctChars password).filterMap fun ch =>
    if 2 < countChars password ch then some (ch, countChars password ch - 2) else none

/-- The substitute selection of one phase-1 replacement: a same-class pick
(`pool ? pickAvailable(pool, counts) : null`), falling back to
`pickAnyAvailable` when it yields `null`. -/
def phase1Pick (g : Rng) (k : Nat) (counts : Counts) (ch : Char) : Option Char × Nat :=
  let cls := classifyChar ch
  let pool := if cls ≠ CharClass.unknown then getPool cls else []
  let r1 := if pool ≠ [] then pickAvailable g k pool counts else (none, k)
  match r1.1 with
  | some r => (some r, r1.2)
  | none => pickAnyAvailable g r1.2 counts

/-- The inner loop of phase 1 for one violator `ch`: walk its positions
from the right, replacing until `excess` replacements have succeeded. -/
def phase1Idx (g : Rng) (ch : Char) (excess : Nat) :
    List Nat → Nat → FixState → Nat → FixState × Nat
  | [], _, st, k => (st, k)
  | idx :: rest, replaced, st, k =>
    if excess ≤ replaced then (st, k)
    else
      let p := phase1Pick g k st.counts ch
      match p.1 with
      | some rep =>
        phase1Idx g ch excess rest (replaced + 1)
          { chars := st.chars.set idx rep
            neg := st.neg
            counts := incr (decr st.counts ch) rep
            changes := st.changes ++ [⟨(idx : Int), JsVal.str [ch], rep⟩] } p.2
      | none => phase1Idx g ch excess rest replaced st p.2

/-- Phase 1 over the violator list. -/
def phase1Go (g : Rng) : List (Char × Nat) → FixState → Nat → FixState × Nat
  | [], st, k => (st, k)
  | (ch, excess) :: rest, st, k =>
    let p := phase1Idx g ch excess (revIndicesOf st.chars ch) 0 st k
    phase1Go g rest p.1 p.2

/-- Phase 1: repeat-limit repair (rule 6).  The violators are computed
from the counts at entry, i.e. from the original password. -/
def phase1 (g : Rng) (password : JsStr) (st : FixState) (k : Nat) : FixState × Nat :=
  phase1Go g (violatorsExcess password) st k

/-- The membership tests of phase 2's `classChecks` (literal transcriptions
of the `chars.some(...)` predicates; `unknown` has no check). -/
def classTest (chars : JsStr) : CharClass → Bool
  | .uppercase => chars.any fun c => decide ('A' ≤ c ∧ c ≤ 'Z')
  | .lowercase => chars.any fun c => decide ('a' ≤ c ∧ c ≤ 'z')
  | .digit => chars.any fun c => decide ('0' ≤ c ∧ c ≤ '9')
  | .special => chars.any fun c => decide (c ∈ SPECIAL_CHARS)
  | .unknown => false

/-- The per-class representative counts of phase 2 (`unknown` is skipped by
the code and never queried). -/
def classCountsOf (chars : JsStr) : CharClass → Nat := fun cl =>
  (chars.filter fun c => decide (classifyChar c = cl)).length

/-- The backward scan for a replacement position: skip positions already in
the target class, break at the first unknown, otherwise remember the
rightmost position of the class with the largest surplus (> 1) found. -/
def scanBest (chars : JsStr) (target : CharClass) (cc : CharClass → Nat) :
    List Nat → Int → Nat → Int
  | [], bestIdx, _ => bestIdx
  | i :: rest, bestIdx, bestSurplus =>
    let cl := classifyChar (chars.getD i 'A')
    if cl = target then scanBest chars target cc rest bestIdx bestSurplus
    else if cl = CharClass.unknown then (i : Int)
    else
      let surplus := cc cl
      if 1 < surplus ∧ bestSurplus < surplus then
        scanBest chars target cc rest (i : Int) surplus
      else scanBest chars target cc rest bestIdx bestSurplus

/-- Read `chars[i]`, including the `-1` property slot. -/
def readAt (st : FixState) (i : Int) : JsVal :=
  if i = -1 then st.neg
  else if 0 ≤ i ∧ i < (st.chars.length : Int) then JsVal.str [st.chars.getD i.toNat 'A']
  else JsVal.undef

/-- Write `chars[i] = c`: index `-1` stores into the property slot and
leaves the elements untouched, exactly as in JS. -/
def writeAt (st : FixState) (i : Int) (c : Char) : FixState :=
  if i = -1 then { st with neg := JsVal.str [c] }
  else { st with chars := st.chars.set i.toNat c }

/-- `counts.set(oldCh, (counts.get(oldCh) || 1) - 1)` where `oldCh` may be
`undefined`: the code then stores 0 under the key `undefined`, which no
later read ever observes (all later lookups are by real characters), so
that entry is dropped here. -/
def decrVal (counts : Counts) : JsVal → Counts
  | JsVal.str [c] => decr counts c
  | _ => counts

/-- One iteration of phase 2, for the missing class `target`. -/
def phase2Check (g : Rng) (target : CharClass) (st : FixState) (k : Nat) :
    FixState × Nat :=
  if classTest st.chars target then (st, k)
  else
    let p := pickAvailable g k (getPool target) st.counts
    match p.1 with
    | none => (st, p.2)
    | some rep =>
      let cc := classCountsOf st.chars
      let best := scanBest st.chars target cc (List.range st.chars.length).reverse (-1) 0
      let bestIdx := if best = -1 then (st.chars.length : Int) - 1 else best
      let oldCh := readAt st bestIdx
      let st' := writeAt st bestIdx rep
      ({ st' with
          counts := incr (decrVal st'.counts oldCh) rep
          changes := st'.changes ++ [⟨bestIdx, oldCh, rep⟩] }, p.2)

/-- Phase 2: missing-class repair, in the fixed order of `classChecks`. -/
def phase2 (g : Rng) (st : FixState) (k : Nat) : FixState × Nat :=
  let p1 := phase2Check g CharClass.uppercase st k
  let p2 := phase2Check g CharClass.lowercase p1.1 p1.2
  let p3 := phase2Check g CharClass.digit p2.1 p2.2
  phase2Check g CharClass.special p3.1 p3.2

/-- Phase 3: while the array has fewer than 8 elements, append an
available character.  Each iteration grows the array by one, so fuel 8
reproduces the `while` loop exactly. -/
def phase3Loop (g : Rng) : Nat → FixState → Nat → FixState × Nat
  | 0, st, k => (st, k)
  | fuel + 1, st, k =>
    if st.chars.length < 8 then
      let p := pickAnyAvailable g k st.counts
      match p.1 with
      | none => (st, p.2)
      | some ch =>
        phase3Loop g fuel
          { chars := st.chars ++ [ch]
            neg := st.neg
            counts := incr st.counts ch
            changes := st.changes ++ [⟨(st.chars.length : Int), JsVal.str [], ch⟩] } p.2
    else (st, k)

/-- Phase 4: replace any remaining unknown-class characters, scanning the
index list left to right (the array length is constant in this phase). -/
def phase4Go (g : Rng) : List Nat → FixState → Nat → FixState × Nat
  | [], st, k => (st, k)
  | i :: rest, st, k =>
    if classifyChar (st.chars.getD i 'A') = CharClass.unknown then
      let p := pickAnyAvailable g k st.counts
      match p.1 with
      | some rep =>
        let oldCh := st.chars.getD i 'A'
        phase4Go g rest
          { chars := st.chars.set i rep
            neg := st.neg
            counts := incr (decr st.counts oldCh) rep
            changes := st.changes ++ [⟨(i : Int), JsVal.str [oldCh], rep⟩] } p.2
      | none => phase4Go g rest st p.2
    else phase4Go g rest st k

/-- The state at the start of a `tryFix` attempt: `chars = [...password]`,
`counts = countChars(password)`, no changes. -/
def initState (password : JsStr) : FixState :=
  ⟨password, JsVal.undef, countChars password, []⟩

/-- A single attempt of `fix` (`tryFix` in the source). -/
def tryFix (g : Rng) (k : Nat) (password : JsStr) : FixResult × Nat :=
  let p1 := phase1 g password (initState password) k
  let p2 := phase2 g p1.1 p1.2
  let p3 := phase3Loop g 8 p2.1 p2.2
  let p4 := phase4Go g (List.range p3.1.chars.length) p3.1 p3.2
  (⟨password, p4.1.chars, p4.1.changes, (validate p4.1.chars).overall⟩, p4.2)

/-- The retry loop of `fix`: up to 3 attempts returning the first valid
result; after 3 invalid attempts the code makes one more `tryFix` call
(its final fallback) and returns that result. -/
def fixLoop (g : Rng) : Nat → Nat → JsStr → FixResult × Nat
  | k, 0, password => tryFix g k password
  | k, fuel + 1, password =>
    let r := tryFix g k password
    if r.1.valid then r else fixLoop g r.2 fuel password

/-- `fix(password)` from the fixer module. -/
def fix (g : Rng) (password : JsStr) : FixResult := (fixLoop g 0 3 password).1

/-- Number of `tryFix` calls made by `fix` (mirror of `fixLoop`). -/
def fixAttemptsAux (g : Rng) : Nat → Nat → JsStr → Nat
  | _, 0, _ => 1
  | k, fuel + 1, password =>
    let r := tryFix g k password
    if r.1.valid then 1 else 1 + fixAttemptsAux g r.2 fuel password

/-- Number of `tryFix` calls made by `fix g password`. -/
def fixAttempts (g : Rng) (password : JsStr) : Nat := fixAttemptsAux g 0 3 password

example : (fix g0 "Abcdef1#".data).changes = [] := by decide

example : (fix g0 "Abcdef1#".data).fixed = "Abcdef1#".data := by decide

set_option maxHeartbeats 1000000 in
example : (fix g0 "AAAdef1#".data).valid = true := by decide

set_option maxHeartbeats 1000000 in
example : (fix g0 "AAAdef1#".data).fixed.count 'A' = 2 := by decide

set_option maxHeartbeats 1000000 in
example : (fix g0 "Ab1#".data).fixed.length = 8 := by decide

/-- The same-class candidate set of the spec's phase-1 description:
characters of the class pool with current count below 2. -/
def availInClass (counts : Counts) (cls : CharClass) : List Char :=
  (getPool cls).filter fun c => decide (counts c < 2)

/-- The any-class candidate set of the spec's phase-1 description. -/
def availAny (counts : Counts) : List Char :=
  fullPool.filter fun c => decide (counts c < 2)

/-- Modelled from the claim (C9): consume one recorded change per expected
position of the violator `ch`, demanding that the change sits at that
position, removes `ch`, and substitutes a character that is same-class with
count < 2 when possible, any-class with count < 2 otherwise; counts are
updated immediately after each substitution. -/
def checkViolatorSpec (ch : Char) :
    List Nat → JsStr → Counts → List Change → Option (JsStr × Counts × List Change)
  | [], chars, counts, cs => some (chars, counts, cs)
  | idx :: rest, chars, counts, cs =>
    match cs with
    | [] => none
    | c :: cs' =>
      if c.index = (idx : Int) ∧ c.from' = JsVal.str [ch] ∧
          (if availInClass counts (classifyChar ch) ≠ [] then
            c.to' ∈ availInClass counts (classifyChar ch)
          else c.to' ∈ availAny counts) then
        checkViolatorSpec ch rest (chars.set idx c.to') (incr (decr counts ch) c.to') cs'
      else none

/-- Modelled from the claim (C9): walk the violators; each must have
exactly `excess` changes at the `excess` rightmost occurrences of its
character, and no further change may remain. -/
def phase1ClaimGo : List (Char × Nat) → JsStr → Counts → List Change → Bool
  | [], _, _, cs => decide (cs = [])
  | (ch, excess) :: rest, chars, counts, cs =>
    match checkViolatorSpec ch ((revIndicesOf chars ch).take excess) chars counts cs with
    | some (chars', counts', cs') => phase1ClaimGo rest chars' counts' cs'
    | none => false

/-- Modelled from the claim (C9): the full check of a phase-1 change list
against the claim's description of phase 1. -/
def phase1ClaimCheck (s : JsStr) (cs : List Change) : Bool :=
  phase1ClaimGo (violatorsExcess s) s (countChars s) cs

/-- Modelled from the claim (C10): replay one recorded change against a
working string; a change with `from' = ''` appends `to'` at index equal to
the current length, and a change with a one-character `from'` substitutes
at its index, which must currently hold that character. -/
def applyChangeSpec (s : JsStr) (c : Change) : Option JsStr :=
  match c.from' with
  | JsVal.str [] => if c.index = (s.length : Int) then some (s ++ [c.to']) else none
  | JsVal.str [f] =>
    if 0 ≤ c.index ∧ c.index < (s.length : Int) then
      if s.getD c.index.toNat 'A' = f then some (s.set c.index.toNat c.to') else none
    else none
  | _ => none

/-- Modelled from the claim (C10): replay a change list in order. -/
def replaySpec (s : JsStr) (cs : List Change) : Option JsStr :=
  cs.foldl (fun acc c => acc.bind fun cur => applyChangeSpec cur c) (some s)

/-- C1's counterexample input: five ASCII characters and two astral digits
(U+1D7D8, U+1D7D9), i.e. 7 code points but 9 UTF-16 code units. -/
def cexAstral : JsStr := "Ab1!x".data ++ [Char.ofNat 120792, Char.ofNat 120793]

/-- C3's counterexample input: a valid password containing the
unknown-class character `_`. -/
def cexUnknownValid : JsStr := "Ab1!xyz_".data

/-- A 145-character input: every pool character twice plus a third `a`,
which exceeds the fixer's total replacement capacity. -/
def cexOverfullA : JsStr := fullPool ++ fullPool ++ ['a']

/-- A 145-character input: every pool character twice plus one `_`,
leaving no available substitute for the unknown character. -/
def cexOverfullU : JsStr := fullPool ++ fullPool ++ ['_']

/-- C1, counterexample: the claim requires rule 1 to count Unicode code
points, but `validate` accepts a string of only 7 code points (whose
UTF-16 length is 9), so `overall` can be true while the claimed rule-1
predicate (at least 8 code points) is false. -/
theorem c1_counterexample :
    (validate cexAstral).overall = true ∧ cexAstral.length < 8 := by
  decide

set_option maxRecDepth 4000 in
set_option maxHeartbeats 4000000 in
/-- C3, counterexample: `cexUnknownValid` is valid overall, yet `fix`
edits it (phase 4 replaces its unknown-class `_`), so `changes` is not
empty and `fixed` differs from the input. -/
theorem c3_counterexample :
    (validate cexUnknownValid).overall = true ∧
      (fix g0 cexUnknownValid).changes ≠ [] ∧
      (fix g0 cexUnknownValid).fixed ≠ cexUnknownValid := by
  decide

set_option maxRecDepth 10000 in
set_option maxHeartbeats 16000000 in
/-- C4, counterexample: on an unfixable input, `fix` performs 4 `tryFix`
attempts (3 in the retry loop plus the final fallback call), not at most
3 as claimed. -/
theorem c4_counterexample : fixAttempts g0 cexOverfullA = 4 := by
  decide

set_option maxRecDepth 10000 in
set_option maxHeartbeats 16000000 in
/-- C5, counterexample: for the 145-character input with a third `a`,
every substitute pool is exhausted and `fix` leaves `a` occurring 3 times
in the fixed string.  (The claim says every character occurs at most
twice in `fix(s).fixed` for every `s`.) -/
theorem c5_counterexample : (fix g0 cexOverfullA).fixed.count 'a' = 3 := by
  decide

set_option maxRecDepth 10000 in
set_option maxHeartbeats 16000000 in
/-- C6, counterexample: for the 145-character input with one `_`, no
substitute with count below 2 exists, so the unknown-class `_` survives in
`fix(s).fixed`, which therefore is not contained in the four class
alphabets. -/
theorem c6_counterexample :
    '_' ∈ (fix g0 cexOverfullU).fixed ∧ '_' ∉ fullPool := by
  decide

set_option maxRecDepth 10000 in
set_option maxHeartbeats 16000000 in
/-- C9, counterexample: `cexOverfullA` has the single violator `a` with
excess 1, yet phase 1 performs no replacement at all (no substitute has
count below 2), so it does not replace exactly `count - 2` rightmost
occurrences as claimed. -/
theorem c9_counterexample :
    violatorsExcess cexOverfullA = [('a', 1)] ∧
      (phase1 g0 cexOverfullA (initState cexOverfullA) 0).1.changes = [] ∧
      phase1ClaimCheck cexOverfullA
        (phase1 g0 cexOverfullA (initState cexOverfullA) 0).1.changes = false := by
  decide

/-! Helper lemmas about the retry loops. -/

theorem tryFix_valid_def (g : Rng) (k : Nat) (s : JsStr) :
    (tryFix g k s).1.valid = (validate (tryFix g k s).1.fixed).overall := by
  unfold tryFix
  dsimp only

theorem fixLoop_succ (g : Rng) (k n : Nat) (s : JsStr) :
    fixLoop g k (n + 1) s =
      if (tryFix g k s).1.valid then tryFix g k s
      else fixLoop g (tryFix g k s).2 n s := rfl

theorem fixLoop_valid_def (g : Rng) (fuel : Nat) :
    ∀ (k : Nat) (s : JsStr),
      (fixLoop g k fuel s).1.valid = (validate (fixLoop g k fuel s).1.fixed).overall := by
  induction fuel with
  | zero => intro k s; exact tryFix_valid_def g k s
  | succ n ih =>
    intro k s
    rw [fixLoop_succ]
    by_cases h : (tryFix g k s).1.valid = true
    · rw [if_pos h]; exact tryFix_valid_def g k s
    · rw [if_neg h]; exact ih _ s

theorem fixAttemptsAux_succ (g : Rng) (k n : Nat) (s : JsStr) :
    fixAttemptsAux g k (n + 1) s =
      if (tryFix g k s).1.valid then 1
      else 1 + fixAttemptsAux g (tryFix g k s).2 n s := rfl

theorem fixAttemptsAux_le (g : Rng) (fuel : Nat) :
    ∀ (k : Nat) (s : JsStr), fixAttemptsAux g k fuel s ≤ fuel + 1 := by
  induction fuel with
  | zero => intro k s; exact le_refl 1
  | succ n ih =>
    intro k s
    rw [fixAttemptsAux_succ]
    by_cases h : (tryFix g k s).1.valid = true
    · rw [if_pos h]; omega
    · rw [if_neg h]; have := ih (tryFix g k s).2 s; omega

theorem fixLoop_is_attempt (g : Rng) (fuel : Nat) :
    ∀ (k : Nat) (s : JsStr), ∃ j, fixLoop g k fuel s = tryFix g j s := by
  induction fuel with
  | zero => intro k s; exact ⟨k, rfl⟩
  | succ n ih =>
    intro k s
    rw [fixLoop_succ]
    by_cases h : (tryFix g k s).1.valid = true
    · rw [if_pos h]; exact ⟨k, rfl⟩
    · rw [if_neg h]; exact ih _ s

theorem fixLoop_early_valid (g : Rng) (fuel : Nat) :
    ∀ (k : Nat) (s : JsStr), fixAttemptsAux g k fuel s ≤ fuel →
      (fixLoop g k fuel s).1.valid = true := by
  induction fuel with
  | zero =>
    intro k s h
    rw [show fixAttemptsAux g k 0 s = 1 from rfl] at h
    omega
  | succ n ih =>
    intro k s h
    rw [fixAttemptsAux_succ] at h
    rw [fixLoop_succ]
    by_cases hv : (tryFix g k s).1.valid = true
    · rw [if_pos hv]; exact hv
    · rw [if_neg hv]
      rw [if_neg hv] at h
      exact ih _ s (by omega)

/-- C2: for every oracle and string, the `valid` flag of `fix` is exactly
the result of re-running the validator on the fixed string; it is computed
that way at the end of each attempt, never assumed. -/
theorem c2_soundness (g : Rng) (s : JsStr) :
    (validate (fix g s).fixed).overall = (fix g s).valid := by
  unfold fix
  exact (fixLoop_valid_def g 3 0 s).symm

/-- C4, amended: `fix` performs at most 4 `tryFix` attempts (3 retried
attempts plus, when all of them are invalid, one final fallback attempt);
the returned record always is some attempt's result, and fewer than 4
attempts happen only when the result is valid.  It never throws or loops. -/
theorem c4_attempts_amended (g : Rng) (s : JsStr) :
    fixAttempts g s ≤ 4 ∧
      (∃ j, fix g s = (tryFix g j s).1) ∧
      (3 < fixAttempts g s ∨ (fix g s).valid = true) := by
  refine ⟨?_, ?_, ?_⟩
  · show fixAttemptsAux g 0 3 s ≤ 4
    exact fixAttemptsAux_le g 3 0 s
  · obtain ⟨j, hj⟩ := fixLoop_is_attempt g 3 0 s
    refine ⟨j, ?_⟩
    unfold fix
    rw [hj]
  · by_cases h : 3 < fixAttempts g s
    · exact Or.inl h
    · refine Or.inr ?_
      unfold fix
      refine fixLoop_early_valid g 3 0 s ?_
      unfold fixAttempts at h
      omega

/-! Helper lemmas for the generator's attempt loop. -/

theorem generateLoop_succ (g : Rng) (k len n : Nat) :
    generateLoop g k len (n + 1) =
      if (validate (genAttempt g k len).1).overall then
        (⟨(genAttempt g k len).1, true⟩, (genAttempt g k len).2)
      else generateLoop g (genAttempt g k len).2 len n := rfl

theorem genAttemptsAux_succ (g : Rng) (k len n : Nat) :
    genAttemptsAux g k len (n + 1) =
      if (validate (genAttempt g k len).1).overall then 1
      else 1 + genAttemptsAux g (genAttempt g k len).2 len n := rfl

theorem genAttemptsAux_le (g : Rng) (fuel : Nat) :
    ∀ (k len : Nat), genAttemptsAux g k len fuel ≤ fuel := by
  induction fuel with
  | zero => intro k len; exact le_refl 0
  | succ n ih =>
    intro k len
    rw [genAttemptsAux_succ]
    by_cases h : (validate (genAttempt g k len).1).overall = true
    · rw [if_pos h]; omega
    · rw [if_neg h]; have := ih (genAttempt g k len).2 len; omega

theorem generateLoop_fallback (g : Rng) (fuel : Nat) :
    ∀ (k len : Nat),
      (generateLoop g k len fuel).1 = ⟨[], false⟩ ∨
        (generateLoop g k len fuel).1.valid = true := by
  induction fuel with
  | zero => intro k len; exact Or.inl rfl
  | succ n ih =>
    intro k len
    rw [generateLoop_succ]
    by_cases h : (validate (genAttempt g k len).1).overall = true
    · rw [if_pos h]; exact Or.inr rfl
    · rw [if_neg h]; exact ih _ len

theorem drawLoop_succ (g : Rng) (counts : Counts) (k n : Nat) :
    drawLoop g counts k (n + 1) =
      if counts (randomChar g k fullPool).1 < 2
      then (some (randomChar g k fullPool).1, (randomChar g k fullPool).2)
      else drawLoop g counts (randomChar g k fullPool).2 n := rfl

theorem drawLoop_counter_le (g : Rng) (counts : Counts) (fuel : Nat) :
    ∀ (k : Nat), (drawLoop g counts k fuel).2 ≤ k + fuel := by
  induction fuel with
  | zero => intro k; exact Nat.le_refl k
  | succ n ih =>
    intro k
    rw [drawLoop_succ]
    by_cases h : counts (randomChar g k fullPool).1 < 2
    · rw [if_pos h]; show k + 1 ≤ k + (n + 1); omega
    · rw [if_neg h]
      have := ih (randomChar g k fullPool).2
      have hk : (randomChar g k fullPool).2 = k + 1 := rfl
      omega

/-! Helper lemmas about `countChars`, `distinctChars` and `validate`. -/

theorem foldl_incr_apply (c : Char) :
    ∀ (s : JsStr) (f : Counts), (s.foldl incr f) c = f c + s.count c := by
  intro s
  induction s with
  | nil => intro f; simp
  | cons x xs ih =>
    intro f
    rw [List.foldl_cons, ih (incr f x), List.count_cons]
    unfold incr
    by_cases h : c = x
    · subst h; simp; omega
    · have hbx : ¬ (x == c) = true := by simp [h]; intro hc; exact h hc.symm
      simp [h, hbx]

theorem countChars_eq_count (s : JsStr) (c : Char) : countChars s c = s.count c := by
  unfold countChars
  rw [foldl_incr_apply c s (fun _ => 0)]
  omega

theorem mem_distinctChars_aux (c : Char) :
    ∀ (s : JsStr) (acc : JsStr),
      c ∈ s.foldl (fun acc ch => if ch ∈ acc then acc else acc ++ [ch]) acc ↔
        c ∈ acc ∨ c ∈ s := by
  intro s
  induction s with
  | nil => intro acc; simp
  | cons x xs ih =>
    intro acc
    rw [List.foldl_cons]
    by_cases h : x ∈ acc
    · rw [if_pos h, ih acc]
      constructor
      · rintro (hc | hc)
        · exact Or.inl hc
        · exact Or.inr (List.mem_cons_of_mem x hc)
      · rintro (hc | hc)
        · exact Or.inl hc
        · rcases List.mem_cons.mp hc with hc | hc
          · exact Or.inl (hc ▸ h)
          · exact Or.inr hc
    · rw [if_neg h, ih (acc ++ [x])]
      simp [or_assoc]

theorem mem_distinctChars (s : JsStr) (c : Char) : c ∈ distinctChars s ↔ c ∈ s := by
  unfold distinctChars
  rw [mem_distinctChars_aux c s []]
  simp

theorem count_eq_zero_of_not_mem_chars {s : JsStr} {c : Char} (h : c ∉ s) :
    s.count c = 0 :=
  List.count_eq_zero.mpr h

theorem violatorsOf_eq_nil_iff (s : JsStr) :
    violatorsOf s = [] ↔ ∀ c, countChars s c ≤ 2 := by
  unfold violatorsOf
  rw [List.filterMap_eq_nil_iff]
  constructor
  · intro h c
    by_cases hm : c ∈ s
    · have := h c ((mem_distinctChars s c).mpr hm)
      by_cases hgt : 2 < countChars s c
      · rw [if_pos hgt] at this; exact absurd this (by simp)
      · omega
    · rw [countChars_eq_count, count_eq_zero_of_not_mem_chars hm]; omega
  · intro h c _
    rw [if_neg (by have := h c; omega)]

theorem validate_overall_iff (s : JsStr) :
    (validate s).overall = true ↔
      (8 ≤ utf16Len s ∧
        (∃ c ∈ s, 'A' ≤ c ∧ c ≤ 'Z') ∧
        (∃ c ∈ s, 'a' ≤ c ∧ c ≤ 'z') ∧
        (∃ c ∈ s, c ∈ SPECIAL_CHARS) ∧
        (∃ c ∈ s, '0' ≤ c ∧ c ≤ '9') ∧
        (∀ c, s.count c ≤ 2)) := by
  show (List.all _ _ = true) ↔ _
  simp only [List.all_cons, List.all_nil, Bool.and_eq_true, decide_eq_true_eq,
    List.any_eq_true]
  constructor
  · rintro ⟨h1, h2, h3, h4, h5, h6, -⟩
    refine ⟨h1, h2, h3, h4, h5, ?_⟩
    intro c
    have := (violatorsOf_eq_nil_iff s).mp h6 c
    rw [countChars_eq_count] at this
    exact this
  · rintro ⟨h1, h2, h3, h4, h5, h6⟩
    refine ⟨h1, h2, h3, h4, h5, ?_, trivial⟩
    refine (violatorsOf_eq_nil_iff s).mpr ?_
    intro c
    rw [countChars_eq_count]
    exact h6 c

/-- C1, amended: `validate(s).overall` is true exactly when all six rules
hold, where rule 1 requires a length of at least 8 counted in UTF-16 code
units (the JS string `.length`, an astral character counting as 2), rules
2-5 require a character of the uppercase / lowercase / special / digit
class respectively, and rule 6 requires that no character occurs more than
twice. -/
theorem c1_rules_iff_amended (s : JsStr) :
    (validate s).overall = true ↔
      (8 ≤ utf16Len s ∧
        (∃ c ∈ s, 'A' ≤ c ∧ c ≤ 'Z') ∧
        (∃ c ∈ s, 'a' ≤ c ∧ c ≤ 'z') ∧
        (∃ c ∈ s, c ∈ SPECIAL_CHARS) ∧
        (∃ c ∈ s, '0' ≤ c ∧ c ≤ '9') ∧
        (∀ c, s.count c ≤ 2)) :=
  validate_overall_iff s

/-- C8: `generate` performs at most 10 attempts; each slot of an attempt
makes at most 100 random draws (the counter advances by at most the fuel)
before the deterministic pool scan; and the result is either a validated
attempt (`valid = true`) or the explicit defensive fallback
`{ password: '', valid: false }` — the loops are bounded, never infinite. -/
theorem c8_bounded_attempts (g : Rng) (n : Int) (counts : Counts) (k : Nat) :
    genAttempts g n ≤ 10 ∧
      (generate g n = ⟨[], false⟩ ∨ (generate g n).valid = true) ∧
      (drawLoop g counts k 100).2 ≤ k + 100 := by
  exact ⟨genAttemptsAux_le g 10 0 (clampLength n),
    generateLoop_fallback g 10 0 (clampLength n),
    drawLoop_counter_le g counts 100 k⟩

/-! Ground facts about the character-class alphabets. -/

theorem fullPool_nodup : fullPool.Nodup := by decide

theorem classify_upper : ∀ c ∈ uppercaseChars, classifyChar c = CharClass.uppercase := by
  decide

theorem classify_lower : ∀ c ∈ lowercaseChars, classifyChar c = CharClass.lowercase := by
  decide

theorem classify_digit : ∀ c ∈ digitChars, classifyChar c = CharClass.digit := by
  decide

theorem classify_special : ∀ c ∈ SPECIAL_CHARS, classifyChar c = CharClass.special := by
  decide

theorem mem_upper_range : ∀ c ∈ uppercaseChars, 'A' ≤ c ∧ c ≤ 'Z' := by decide

theorem mem_lower_range : ∀ c ∈ lowercaseChars, 'a' ≤ c ∧ c ≤ 'z' := by decide

theorem mem_digit_range : ∀ c ∈ digitChars, '0' ≤ c ∧ c ≤ '9' := by decide

theorem pool_utf16Size : ∀ c ∈ fullPool, utf16Size c = 1 := by decide

theorem mem_fullPool_iff (c : Char) :
    c ∈ fullPool ↔
      c ∈ uppercaseChars ∨ c ∈ lowercaseChars ∨ c ∈ digitChars ∨ c ∈ SPECIAL_CHARS := by
  unfold fullPool
  simp [List.mem_append, or_assoc]

theorem classify_ne_unknown_of_mem_pool {c : Char} (h : c ∈ fullPool) :
    classifyChar c ≠ CharClass.unknown := by
  rcases (mem_fullPool_iff c).mp h with h | h | h | h
  · rw [classify_upper c h]; intro hc; cases hc
  · rw [classify_lower c h]; intro hc; cases hc
  · rw [classify_digit c h]; intro hc; cases hc
  · rw [classify_special c h]; intro hc; cases hc

set_option maxRecDepth 4000 in
theorem mem_upper_of_range {c : Char} (h1 : 'A' ≤ c) (h2 : c ≤ 'Z') :
    c ∈ uppercaseChars := by
  have h65 : 65 ≤ c.toNat := h1
  have h90 : c.toNat ≤ 90 := h2
  have key : ∀ n ∈ List.range 91, 65 ≤ n → Char.ofNat n ∈ uppercaseChars := by decide
  have hc : c = Char.ofNat c.toNat := (Char.ofNat_toNat c).symm
  rw [hc]
  exact key c.toNat (List.mem_range.mpr (by omega)) h65

set_option maxRecDepth 4000 in
theorem mem_lower_of_range {c : Char} (h1 : 'a' ≤ c) (h2 : c ≤ 'z') :
    c ∈ lowercaseChars := by
  have h97 : 97 ≤ c.toNat := h1
  have h122 : c.toNat ≤ 122 := h2
  have key : ∀ n ∈ List.range 123, 97 ≤ n → Char.ofNat n ∈ lowercaseChars := by decide
  have hc : c = Char.ofNat c.toNat := (Char.ofNat_toNat c).symm
  rw [hc]
  exact key c.toNat (List.mem_range.mpr (by omega)) h97

set_option maxRecDepth 4000 in
theorem mem_digit_of_range {c : Char} (h1 : '0' ≤ c) (h2 : c ≤ '9') :
    c ∈ digitChars := by
  have h48 : 48 ≤ c.toNat := h1
  have h57 : c.toNat ≤ 57 := h2
  have key : ∀ n ∈ List.range 58, 48 ≤ n → Char.ofNat n ∈ digitChars := by decide
  have hc : c = Char.ofNat c.toNat := (Char.ofNat_toNat c).symm
  rw [hc]
  exact key c.toNat (List.mem_range.mpr (by omega)) h48

theorem mem_pool_of_classify_known {c : Char} (h : classifyChar c ≠ CharClass.unknown) :
    c ∈ fullPool := by
  unfold classifyChar at h
  rw [mem_fullPool_iff]
  by_cases h1 : 'A' ≤ c ∧ c ≤ 'Z'
  · exact Or.inl (mem_upper_of_range h1.1 h1.2)
  · rw [if_neg h1] at h
    by_cases h2 : 'a' ≤ c ∧ c ≤ 'z'
    · exact Or.inr (Or.inl (mem_lower_of_range h2.1 h2.2))
    · rw [if_neg h2] at h
      by_cases h3 : '0' ≤ c ∧ c ≤ '9'
      · exact Or.inr (Or.inr (Or.inl (mem_digit_of_range h3.1 h3.2)))
      · rw [if_neg h3] at h
        by_cases h4 : c ∈ SPECIAL_CHARS
        · exact Or.inr (Or.inr (Or.inr h4))
        · rw [if_neg h4] at h; exact absurd rfl h

/-! List bookkeeping lemmas: counts of `set`, sums of counts, swaps. -/

theorem getD_of_lt (l : JsStr) (n : Nat) (d : Char) (h : n < l.length) :
    l.getD n d = l[n] := by
  rw [List.getD_eq_getElem?_getD, List.getElem?_eq_getElem h, Option.getD_some]

theorem count_set (x c : Char) :
    ∀ (l : JsStr) (n : Nat) (h : n < l.length),
      (l.set n x).count c + (if l[n] = c then 1 else 0) =
        l.count c + (if x = c then 1 else 0) := by
  intro l
  induction l with
  | nil => intro n h; simp at h
  | cons a t ih =>
    intro n h
    cases n with
    | zero =>
      simp only [List.set_cons_zero, List.count_cons, beq_iff_eq, List.getElem_cons_zero]
      omega
    | succ m =>
      have hm : m < t.length := by simpa using h
      have hih := ih m hm
      simp only [List.set_cons_succ, List.count_cons, beq_iff_eq, List.getElem_cons_succ]
      omega

theorem length_set_eq (l : JsStr) (n : Nat) (x : Char) :
    (l.set n x).length = l.length := List.length_set l n x

theorem count_swapAt (l : JsStr) (i j : Nat) (hi : i < l.length) (hj : j < l.length)
    (c : Char) : (swapAt l i j).count c = l.count c := by
  show ((l.set i (l.getD j 'A')).set j (l.getD i 'A')).count c = l.count c
  rw [getD_of_lt l i 'A' hi, getD_of_lt l j 'A' hj]
  by_cases hij : i = j
  · subst hij
    rw [List.set_set]
    have h1 := count_set (l[i]) c l i hi
    omega
  · have h1 := count_set (l[j]) c l i hi
    have hj' : j < (l.set i (l[j])).length := by rw [List.length_set]; exact hj
    have h2 := count_set (l[i]) c (l.set i (l[j])) j hj'
    have hg : (l.set i (l[j]))[j] = l[j] := by simp [hij]
    rw [hg] at h2
    omega

theorem swapAt_perm (l : JsStr) (i j : Nat) (hi : i < l.length) (hj : j < l.length) :
    (swapAt l i j).Perm l := by
  rw [List.perm_iff_count]
  intro c
  exact count_swapAt l i j hi hj c

theorem swapAt_length (l : JsStr) (i j : Nat) : (swapAt l i j).length = l.length := by
  unfold swapAt
  rw [length_set_eq, length_set_eq]

theorem shuffleFrom_perm (g : Rng) :
    ∀ (i : Nat) (l : JsStr) (k : Nat), i < l.length →
      ((shuffleFrom g l k i).1).Perm l := by
  intro i
  induction i with
  | zero => intro l k _; exact List.Perm.refl l
  | succ m ih =>
    intro l k h
    show ((shuffleFrom g (swapAt l (m + 1) (secureRandomInt g k (m + 2))) (k + 1) m).1).Perm l
    have hj : secureRandomInt g k (m + 2) < l.length := by
      have : secureRandomInt g k (m + 2) < m + 2 := Nat.mod_lt _ (by omega)
      omega
    have hperm := swapAt_perm l (m + 1) (secureRandomInt g k (m + 2)) h hj
    have hlen : m < (swapAt l (m + 1) (secureRandomInt g k (m + 2))).length := by
      rw [swapAt_length]; omega
    exact (ih _ (k + 1) hlen).trans hperm

theorem sum_two_le (f : Char → Nat) :
    ∀ (L : JsStr), (∀ x ∈ L, 2 ≤ f x) → 2 * L.length ≤ (L.map f).sum := by
  intro L
  induction L with
  | nil => intro _; simp
  | cons x t ih =>
    intro h
    simp only [List.map_cons, List.sum_cons, List.length_cons]
    have h1 := h x (List.mem_cons_self x t)
    have h2 := ih (fun y hy => h y (List.mem_cons_of_mem x hy))
    omega

theorem sum_counts_le (L : JsStr) (hL : L.Nodup) (s : JsStr) :
    ((L.map (fun c => s.count c)).sum) ≤ s.length := by
  classical
  have hsum : (L.map (fun c => s.count c)).sum =
      L.toFinset.sum (fun c => s.count c) := by
    rw [List.sum_toFinset _ hL]
  rw [hsum]
  have hsub : L.toFinset ∩ s.toFinset ⊆ L.toFinset := Finset.inter_subset_left
  have h1 : L.toFinset.sum (fun c => s.count c) =
      (L.toFinset ∩ s.toFinset).sum (fun c => s.count c) := by
    refine (Finset.sum_subset hsub ?_).symm
    intro x hx hnx
    have hxs : x ∉ s.toFinset := by
      intro hc
      exact hnx (Finset.mem_inter.mpr ⟨hx, hc⟩)
    have : x ∉ s := by
      intro hc
      exact hxs (List.mem_toFinset.mpr hc)
    exact List.count_eq_zero.mpr this
  rw [h1]
  have h2 : (L.toFinset ∩ s.toFinset).sum (fun c => s.count c) ≤
      s.toFinset.sum (fun c => s.count c) :=
    Finset.sum_le_sum_of_subset Finset.inter_subset_right
  refine h2.trans ?_
  set_option linter.unnecessarySimpa false in
  have h3 : s.toFinset.sum (fun c => s.count c) = s.length := by
    have hms := Multiset.toFinset_sum_count_eq (s : Multiset Char)
    simpa using hms
  omega

/-- If every pool character already occurs at least twice in `s`, then `s`
has at least 144 characters. -/
theorem pool_full_length (s : JsStr) (h : ∀ c ∈ fullPool, 2 ≤ s.count c) :
    144 ≤ s.length := by
  have h1 := sum_two_le (fun c => s.count c) fullPool h
  have h2 := sum_counts_le fullPool fullPool_nodup s
  have h3 : fullPool.length = 72 := rfl
  omega

/-! Generator correctness: every attempt already yields a valid password
of the clamped length. -/

/-- Lock-step between a counts map and a working character list. -/
def CountsSync (counts : Counts) (chars : JsStr) : Prop :=
  ∀ c, counts c = chars.count c

theorem count_singleton_chars (c ch : Char) :
    ([ch] : JsStr).count c = if c = ch then 1 else 0 := by
  simp only [List.count_cons, List.count_nil, beq_iff_eq]
  by_cases h : c = ch
  · subst h; simp
  · have h2 : ¬ (ch = c) := fun e => h e.symm
    simp [h, h2]

theorem countsSync_incr_append {counts : Counts} {chars : JsStr}
    (h : CountsSync counts chars) (ch : Char) :
    CountsSync (incr counts ch) (chars ++ [ch]) := by
  intro c
  unfold incr
  rw [List.count_append, count_singleton_chars]
  by_cases hc : c = ch
  · subst hc; rw [if_pos rfl, if_pos rfl, h c]
  · rw [if_neg hc, if_neg hc, h c]
    omega

theorem randomChar_mem (g : Rng) (k : Nat) {pool : JsStr} (h : pool ≠ []) :
    (randomChar g k pool).1 ∈ pool := by
  show pool.getD (secureRandomInt g k pool.length) 'A' ∈ pool
  have hlen : 0 < pool.length := List.length_pos.mpr h
  have hlt : secureRandomInt g k pool.length < pool.length := Nat.mod_lt _ hlen
  rw [getD_of_lt pool _ 'A' hlt]
  exact List.getElem_mem hlt

theorem exists_pool_lt_two {counts : Counts} {chars : JsStr}
    (hsync : CountsSync counts chars) (hlen : chars.length ≤ 143) :
    ∃ c ∈ fullPool, counts c < 2 := by
  by_contra hcon
  push_neg at hcon
  have h2 : ∀ c ∈ fullPool, 2 ≤ chars.count c := by
    intro c hc
    have := hcon c hc
    rw [hsync c] at this
    omega
  have := pool_full_length chars h2
  omega

theorem drawLoop_some (g : Rng) (counts : Counts) :
    ∀ (fuel k : Nat) (ch : Char), (drawLoop g counts k fuel).1 = some ch →
      ch ∈ fullPool ∧ counts ch < 2 := by
  intro fuel
  induction fuel with
  | zero => intro k ch h; exact absurd h (by simp [drawLoop])
  | succ n ih =>
    intro k ch h
    rw [drawLoop_succ] at h
    by_cases hc : counts (randomChar g k fullPool).1 < 2
    · rw [if_pos hc] at h
      have : (randomChar g k fullPool).1 = ch := by
        simpa using h
      rw [this] at hc
      refine ⟨?_, hc⟩
      rw [show ch = (randomChar g k fullPool).1 from this.symm]
      exact randomChar_mem g k (by decide)
    · rw [if_neg hc] at h
      exact ih _ ch h

theorem fillLoop_zero (g : Rng) (k : Nat) (chars : JsStr) (counts : Counts) :
    fillLoop g k 0 chars counts = (chars, counts, k) := rfl

theorem fillLoop_succ_eq (g : Rng) (k n : Nat) (chars : JsStr) (counts : Counts) :
    fillLoop g k (n + 1) chars counts =
      match (drawLoop g counts k 100).1 with
      | some ch => fillLoop g (drawLoop g counts k 100).2 n (chars ++ [ch]) (incr counts ch)
      | none =>
        match fullPool.find? (fun ch => decide (counts ch < 2)) with
        | some ch =>
          fillLoop g (drawLoop g counts k 100).2 n (chars ++ [ch]) (incr counts ch)
        | none => fillLoop g (drawLoop g counts k 100).2 n chars counts := rfl

theorem fillLoop_props (g : Rng) (rem : Nat) :
    ∀ (k : Nat) (chars : JsStr) (counts : Counts),
      CountsSync counts chars →
      (∀ c, counts c ≤ 2) →
      (∀ c ∈ chars, c ∈ fullPool) →
      chars.length + rem ≤ 40 →
      (fillLoop g k rem chars counts).1.length = chars.length + rem ∧
        CountsSync (fillLoop g k rem chars counts).2.1 (fillLoop g k rem chars counts).1 ∧
        (∀ c, (fillLoop g k rem chars counts).2.1 c ≤ 2) ∧
        (∀ c ∈ (fillLoop g k rem chars counts).1, c ∈ fullPool) ∧
        (∀ c ∈ chars, c ∈ (fillLoop g k rem chars counts).1) := by
  induction rem with
  | zero =>
    intro k chars counts h1 h2 h3 _
    rw [fillLoop_zero]
    exact ⟨rfl, h1, h2, h3, fun c hc => hc⟩
  | succ n ih =>
    intro k chars counts h1 h2 h3 h4
    have hstep :
        ∀ (ch : Char), ch ∈ fullPool → counts ch < 2 →
          ((fillLoop g (drawLoop g counts k 100).2 n (chars ++ [ch])
              (incr counts ch)).1.length = chars.length + (n + 1) ∧
            CountsSync
              (fillLoop g (drawLoop g counts k 100).2 n (chars ++ [ch])
                (incr counts ch)).2.1
              (fillLoop g (drawLoop g counts k 100).2 n (chars ++ [ch])
                (incr counts ch)).1 ∧
            (∀ c, (fillLoop g (drawLoop g counts k 100).2 n (chars ++ [ch])
                (incr counts ch)).2.1 c ≤ 2) ∧
            (∀ c ∈ (fillLoop g (drawLoop g counts k 100).2 n (chars ++ [ch])
                (incr counts ch)).1, c ∈ fullPool) ∧
            (∀ c ∈ chars, c ∈ (fillLoop g (drawLoop g counts k 100).2 n
                (chars ++ [ch]) (incr counts ch)).1)) := by
      intro ch hmem hlt
      have hs := countsSync_incr_append h1 ch
      have hle : ∀ c, incr counts ch c ≤ 2 := by
        intro c
        unfold incr
        by_cases hc : c = ch
        · rw [if_pos hc]; omega
        · rw [if_neg hc]; exact h2 c
      have hml : ∀ c ∈ chars ++ [ch], c ∈ fullPool := by
        intro c hc
        rcases List.mem_append.mp hc with hc | hc
        · exact h3 c hc
        · rw [List.mem_singleton.mp hc]; exact hmem
      have hlen : (chars ++ [ch]).length + n ≤ 40 := by
        rw [List.length_append]
        simp only [List.length_cons, List.length_nil]
        omega
      obtain ⟨p1, p2, p3, p4, p5⟩ := ih _ (chars ++ [ch]) (incr counts ch) hs hle hml hlen
      refine ⟨?_, p2, p3, p4, ?_⟩
      · rw [p1, List.length_append]; simp; omega
      · intro c hc
        exact p5 c (List.mem_append.mpr (Or.inl hc))
    rw [fillLoop_succ_eq]
    rcases hd : (drawLoop g counts k 100).1 with _ | ch
    · rcases hf : fullPool.find? (fun ch => decide (counts ch < 2)) with _ | ch
      · exfalso
        obtain ⟨c, hcm, hcl⟩ := exists_pool_lt_two h1 (by omega)
        have := List.find?_eq_none.mp hf c hcm
        simp at this
        omega
      · have hp := List.find?_some hf
        have hm := List.mem_of_find?_eq_some hf
        simp at hp
        exact hstep ch hm hp
    · obtain ⟨hm, hl⟩ := drawLoop_some g counts 100 k ch hd
      exact hstep ch hm hl

theorem utf16Len_eq_length_of_pool :
    ∀ (s : JsStr), (∀ c ∈ s, c ∈ fullPool) → utf16Len s = s.length := by
  intro s
  induction s with
  | nil => intro _; rfl
  | cons a t ih =>
    intro h
    have ha := pool_utf16Size a (h a (List.mem_cons_self a t))
    show utf16Size a + (t.map utf16Size).sum = t.length + 1
    have ht := ih (fun c hc => h c (List.mem_cons_of_mem a hc))
    show _ = t.length + 1
    rw [ha]
    have : (t.map utf16Size).sum = utf16Len t := rfl
    rw [this, ht]
    omega

theorem clampLength_bounds (n : Int) : 8 ≤ clampLength n ∧ clampLength n ≤ 40 := by
  unfold clampLength
  have h1 : min 40 n ≤ 40 := min_le_left 40 n
  have h2 : (8 : Int) ≤ max 8 (min 40 n) := le_max_left _ _
  have h3 : max 8 (min 40 n) ≤ 40 := max_le (by norm_num) h1
  omega

theorem genAttempt_props (g : Rng) (k len : Nat) (h8 : 8 ≤ len) (h40 : len ≤ 40) :
    (genAttempt g k len).1.length = len ∧
      (∀ c, (genAttempt g k len).1.count c ≤ 2) ∧
      (∀ c ∈ (genAttempt g k len).1, c ∈ fullPool) ∧
      (∃ c ∈ (genAttempt g k len).1, c ∈ uppercaseChars) ∧
      (∃ c ∈ (genAttempt g k len).1, c ∈ lowercaseChars) ∧
      (∃ c ∈ (genAttempt g k len).1, c ∈ digitChars) ∧
      (∃ c ∈ (genAttempt g k len).1, c ∈ SPECIAL_CHARS) := by
  have hu : (randomChar g k uppercaseChars).1 ∈ uppercaseChars :=
    randomChar_mem g k (by decide)
  have hlo : (randomChar g (randomChar g k uppercaseChars).2 lowercaseChars).1 ∈
      lowercaseChars := randomChar_mem g _ (by decide)
  have hd : (randomChar g (randomChar g (randomChar g k uppercaseChars).2
      lowercaseChars).2 digitChars).1 ∈ digitChars := randomChar_mem g _ (by decide)
  have hsp : (randomChar g (randomChar g (randomChar g (randomChar g k
      uppercaseChars).2 lowercaseChars).2 digitChars).2 SPECIAL_CHARS).1 ∈
      SPECIAL_CHARS := randomChar_mem g _ (by decide)
  set u := (randomChar g k uppercaseChars).1 with hu_def
  set k1 := (randomChar g k uppercaseChars).2 with hk1_def
  set lo := (randomChar g k1 lowercaseChars).1 with hlo_def
  set k2 := (randomChar g k1 lowercaseChars).2 with hk2_def
  set d := (randomChar g k2 digitChars).1 with hd_def
  set k3 := (randomChar g k2 digitChars).2 with hk3_def
  set sp := (randomChar g k3 SPECIAL_CHARS).1 with hsp_def
  set k4 := (randomChar g k3 SPECIAL_CHARS).2 with hk4_def
  have hne1 : u ≠ lo := by
    intro e
    have c1 := classify_upper u hu
    have c2 := classify_lower lo hlo
    rw [e, c2] at c1
    cases c1
  have hne2 : u ≠ d := by
    intro e
    have c1 := classify_upper u hu
    have c2 := classify_digit d hd
    rw [e, c2] at c1
    cases c1
  have hne3 : u ≠ sp := by
    intro e
    have c1 := classify_upper u hu
    have c2 := classify_special sp hsp
    rw [e, c2] at c1
    cases c1
  have hne4 : lo ≠ d := by
    intro e
    have c1 := classify_lower lo hlo
    have c2 := classify_digit d hd
    rw [e, c2] at c1
    cases c1
  have hne5 : lo ≠ sp := by
    intro e
    have c1 := classify_lower lo hlo
    have c2 := classify_special sp hsp
    rw [e, c2] at c1
    cases c1
  have hne6 : d ≠ sp := by
    intro e
    have c1 := classify_digit d hd
    have c2 := classify_special sp hsp
    rw [e, c2] at c1
    cases c1
  have hnodup : ([u, lo, d, sp] : JsStr).Nodup := by
    simp [List.nodup_cons, hne1, hne2, hne3, hne4, hne5, hne6]
  have hsync0 : CountsSync (incr (incr (incr (incr (fun _ => 0) u) lo) d) sp)
      [u, lo, d, sp] := fun c => countChars_eq_count [u, lo, d, sp] c
  have hle0 : ∀ c, incr (incr (incr (incr (fun _ => 0) u) lo) d) sp c ≤ 2 := by
    intro c
    rw [hsync0 c]
    have := List.nodup_iff_count_le_one.mp hnodup c
    omega
  have hmem0 : ∀ c ∈ ([u, lo, d, sp] : JsStr), c ∈ fullPool := by
    intro c hc
    rw [mem_fullPool_iff]
    simp only [List.mem_cons, List.not_mem_nil, or_false] at hc
    rcases hc with rfl | rfl | rfl | rfl
    · exact Or.inl hu
    · exact Or.inr (Or.inl hlo)
    · exact Or.inr (Or.inr (Or.inl hd))
    · exact Or.inr (Or.inr (Or.inr hsp))
  have hlen0 : ([u, lo, d, sp] : JsStr).length + (len - 4) ≤ 40 := by
    simp only [List.length_cons, List.length_nil]
    omega
  obtain ⟨p1, p2, p3, p4, p5⟩ := fillLoop_props g (len - 4) k4 [u, lo, d, sp]
    (incr (incr (incr (incr (fun _ => 0) u) lo) d) sp) hsync0 hle0 hmem0 hlen0
  set f := fillLoop g k4 (len - 4) [u, lo, d, sp]
    (incr (incr (incr (incr (fun _ => 0) u) lo) d) sp) with hf_def
  have hflen : f.1.length = len := by
    rw [p1]
    simp only [List.length_cons, List.length_nil]
    omega
  have hpos : f.1.length - 1 < f.1.length := by omega
  have hperm : ((shuffleFrom g f.1 f.2.2 (f.1.length - 1)).1).Perm f.1 :=
    shuffleFrom_perm g (f.1.length - 1) f.1 f.2.2 hpos
  have hga : genAttempt g k len = shuffleFrom g f.1 f.2.2 (f.1.length - 1) := rfl
  rw [hga]
  refine ⟨?_, ?_, ?_, ?_, ?_, ?_, ?_⟩
  · rw [hperm.length_eq, hflen]
  · intro c
    rw [hperm.count_eq]
    rw [← p2 c]
    exact p3 c
  · intro c hc
    exact p4 c (hperm.mem_iff.mp hc)
  · exact ⟨u, hperm.mem_iff.mpr (p5 u (by simp)), hu⟩
  · exact ⟨lo, hperm.mem_iff.mpr (p5 lo (by simp)), hlo⟩
  · exact ⟨d, hperm.mem_iff.mpr (p5 d (by simp)), hd⟩
  · exact ⟨sp, hperm.mem_iff.mpr (p5 sp (by simp)), hsp⟩

theorem genAttempt_valid (g : Rng) (k len : Nat) (h8 : 8 ≤ len) (h40 : len ≤ 40) :
    (validate (genAttempt g k len).1).overall = true := by
  obtain ⟨p1, p2, p3, p4, p5, p6, p7⟩ := genAttempt_props g k len h8 h40
  rw [validate_overall_iff]
  refine ⟨?_, ?_, ?_, ?_, ?_, p2⟩
  · rw [utf16Len_eq_length_of_pool _ p3, p1]; exact h8
  · obtain ⟨c, hc, hm⟩ := p4
    exact ⟨c, hc, mem_upper_range c hm⟩
  · obtain ⟨c, hc, hm⟩ := p5
    exact ⟨c, hc, mem_lower_range c hm⟩
  · obtain ⟨c, hc, hm⟩ := p7
    exact ⟨c, hc, hm⟩
  · obtain ⟨c, hc, hm⟩ := p6
    exact ⟨c, hc, mem_digit_range c hm⟩

/-- C7: `generate(n)` returns a password of length exactly
`clamp(n, 8, 40)` with `valid = true`: the very first attempt always
validates.  Lengths below 8 or above 40 are silently clamped to the
boundary, not rejected. -/
theorem c7_generate_clamped (g : Rng) (n : Int) :
    (generate g n).valid = true ∧
      (generate g n).password.length = clampLength n ∧
      (n ≤ 8 → clampLength n = 8) ∧
      (40 ≤ n → clampLength n = 40) := by
  obtain ⟨h8, h40⟩ := clampLength_bounds n
  have hv := genAttempt_valid g 0 (clampLength n) h8 h40
  have hgen : generate g n = ⟨(genAttempt g 0 (clampLength n)).1, true⟩ := by
    unfold generate
    rw [show (10 : Nat) = 9 + 1 from rfl, generateLoop_succ, if_pos hv]
  refine ⟨by rw [hgen], ?_, ?_, ?_⟩
  · rw [hgen]
    exact (genAttempt_props g 0 (clampLength n) h8 h40).1
  · intro hn
    unfold clampLength
    have : min 40 n ≤ 8 := by
      refine le_trans (min_le_right 40 n) hn
    omega
  · intro hn
    unfold clampLength
    have : min 40 n = 40 := min_eq_left (by omega)
    rw [this]
    rfl

/-! Fixer machinery: properties of the pick primitives. -/

theorem getPool_subset : ∀ (cls : CharClass), ∀ c ∈ getPool cls, c ∈ fullPool := by
  intro cls c hc
  rw [mem_fullPool_iff]
  cases cls with
  | uppercase => exact Or.inl hc
  | lowercase => exact Or.inr (Or.inl hc)
  | digit => exact Or.inr (Or.inr (Or.inl hc))
  | special => exact Or.inr (Or.inr (Or.inr hc))
  | unknown => cases hc

theorem getD_of_lt' {α : Type} (l : List α) (n : Nat) (d : α) (h : n < l.length) :
    l.getD n d = l[n] := by
  rw [List.getD_eq_getElem?_getD, List.getElem?_eq_getElem h, Option.getD_some]

theorem pickAvailable_some {g : Rng} {k : Nat} {pool : JsStr} {counts : Counts}
    {ch : Char} (h : (pickAvailable g k pool counts).1 = some ch) :
    ch ∈ pool ∧ counts ch < 2 := by
  unfold pickAvailable at h
  by_cases he : (pool.filter fun c => decide (counts c < 2)).isEmpty
  · rw [if_pos he] at h
    cases h
  · rw [if_neg he] at h
    have hne : pool.filter (fun c => decide (counts c < 2)) ≠ [] := by
      intro hcon
      rw [hcon] at he
      exact he rfl
    have hlen : 0 < (pool.filter fun c => decide (counts c < 2)).length :=
      List.length_pos.mpr hne
    have hlt : secureRandomInt g k (pool.filter fun c => decide (counts c < 2)).length <
        (pool.filter fun c => decide (counts c < 2)).length := Nat.mod_lt _ hlen
    have hg := getD_of_lt' (pool.filter fun c => decide (counts c < 2))
      (secureRandomInt g k (pool.filter fun c => decide (counts c < 2)).length) 'A' hlt
    rw [hg] at h
    have hmem := List.getElem_mem hlt
    have hch := (Option.some_injective _ h).symm
    rw [hch]
    have := List.mem_filter.mp hmem
    exact ⟨this.1, by simpa using this.2⟩

theorem pickAvailable_none {g : Rng} {k : Nat} {pool : JsStr} {counts : Counts}
    (h : (pickAvailable g k pool counts).1 = none) :
    ∀ c ∈ pool, ¬ counts c < 2 := by
  unfold pickAvailable at h
  by_cases he : (pool.filter fun c => decide (counts c < 2)).isEmpty
  · intro c hc hlt
    have hmem : c ∈ pool.filter fun c => decide (counts c < 2) :=
      List.mem_filter.mpr ⟨hc, by simpa using hlt⟩
    rw [List.isEmpty_iff] at he
    rw [he] at hmem
    cases hmem
  · rw [if_neg he] at h
    cases h

theorem pickAvailable_not_none {g : Rng} {k : Nat} {pool : JsStr} {counts : Counts}
    {c : Char} (hc : c ∈ pool) (hlt : counts c < 2) :
    ∃ ch, (pickAvailable g k pool counts).1 = some ch := by
  rcases hr : (pickAvailable g k pool counts).1 with _ | ch
  · exact absurd hlt (pickAvailable_none hr c hc)
  · exact ⟨ch, rfl⟩

theorem mem_allPools_getD : ∀ (i : Nat) {c : Char}, c ∈ allPools.getD i [] → c ∈ fullPool := by
  intro i c h
  rw [mem_fullPool_iff]
  match i with
  | 0 => exact Or.inl h
  | 1 => exact Or.inr (Or.inl h)
  | 2 => exact Or.inr (Or.inr (Or.inl h))
  | 3 => exact Or.inr (Or.inr (Or.inr h))
  | n + 4 => cases h

theorem pickAnyGo_cons (g : Rng) (counts : Counts) (i : Nat) (rest : List Nat) (k : Nat) :
    pickAnyGo g counts (i :: rest) k =
      match (pickAvailable g k (allPools.getD i []) counts).1 with
      | some ch => (some ch, (pickAvailable g k (allPools.getD i []) counts).2)
      | none => pickAnyGo g counts rest (pickAvailable g k (allPools.getD i []) counts).2 :=
  rfl

theorem pickAnyGo_some {g : Rng} {counts : Counts} :
    ∀ (order : List Nat) (k : Nat) {ch : Char},
      (pickAnyGo g counts order k).1 = some ch → ch ∈ fullPool ∧ counts ch < 2 := by
  intro order
  induction order with
  | nil => intro k ch h; cases h
  | cons i rest ih =>
    intro k ch h
    rw [pickAnyGo_cons] at h
    rcases hp : (pickAvailable g k (allPools.getD i []) counts).1 with _ | c
    · rw [hp] at h
      exact ih _ h
    · rw [hp] at h
      have hc : c = ch := Option.some_injective _ h
      obtain ⟨hm, hl⟩ := pickAvailable_some hp
      exact hc ▸ ⟨mem_allPools_getD i hm, hl⟩

theorem pickAnyGo_none {g : Rng} {counts : Counts} :
    ∀ (order : List Nat) (k : Nat), (pickAnyGo g counts order k).1 = none →
      ∀ i ∈ order, ∀ c ∈ allPools.getD i [], ¬ counts c < 2 := by
  intro order
  induction order with
  | nil => intro k _ i hi; cases hi
  | cons j rest ih =>
    intro k h i hi c hc hlt
    rw [pickAnyGo_cons] at h
    rcases hp : (pickAvailable g k (allPools.getD j []) counts).1 with _ | r
    · rw [hp] at h
      rcases List.mem_cons.mp hi with rfl | hi'
      · exact pickAvailable_none hp c hc hlt
      · exact ih _ h i hi' c hc hlt
    · rw [hp] at h
      cases h

theorem classOrder_perm (g : Rng) (k : Nat) : (classOrder g k).Perm [0, 1, 2, 3] := by
  unfold classOrder
  have hlt : g.sortPick k % 24 < perms4.length := Nat.mod_lt _ (by decide)
  rw [getD_of_lt' perms4 _ [0, 1, 2, 3] hlt]
  have hall : ∀ p ∈ perms4, p.Perm [0, 1, 2, 3] := by decide
  exact hall _ (List.getElem_mem hlt)

theorem pickAnyAvailable_some {g : Rng} {k : Nat} {counts : Counts} {ch : Char}
    (h : (pickAnyAvailable g k counts).1 = some ch) :
    ch ∈ fullPool ∧ counts ch < 2 :=
  pickAnyGo_some (classOrder g k) (k + 1) h

theorem pickAnyAvailable_not_none {g : Rng} {k : Nat} {counts : Counts} {c : Char}
    (hc : c ∈ fullPool) (hlt : counts c < 2) :
    ∃ ch, (pickAnyAvailable g k counts).1 = some ch ∧ ch ∈ fullPool ∧ counts ch < 2 := by
  rcases hr : (pickAnyAvailable g k counts).1 with _ | ch
  · exfalso
    have hnone := @pickAnyGo_none g counts (classOrder g k) (k + 1) hr
    have hperm := classOrder_perm g k
    rcases (mem_fullPool_iff c).mp hc with h | h | h | h
    · exact hnone 0 (hperm.mem_iff.mpr (by decide)) c h hlt
    · exact hnone 1 (hperm.mem_iff.mpr (by decide)) c h hlt
    · exact hnone 2 (hperm.mem_iff.mpr (by decide)) c h hlt
    · exact hnone 3 (hperm.mem_iff.mpr (by decide)) c h hlt
  · exact ⟨ch, rfl, pickAnyAvailable_some hr⟩

/-! Refined pigeonhole lemmas for the fixer. -/

theorem sum_two_le_with_big (f : Char → Nat) :
    ∀ (L : JsStr), L.Nodup → ∀ v ∈ L, 3 ≤ f v → (∀ x ∈ L, 2 ≤ f x) →
      2 * L.length + 1 ≤ (L.map f).sum := by
  intro L
  induction L with
  | nil => intro _ v hv; cases hv
  | cons a t ih =>
    intro hnd v hv h3 hall
    have hnd' : t.Nodup := (List.nodup_cons.mp hnd).2
    simp only [List.map_cons, List.sum_cons, List.length_cons]
    rcases List.mem_cons.mp hv with rfl | hv'
    · have ht := sum_two_le f t (fun y hy => hall y (List.mem_cons_of_mem _ hy))
      omega
    · have ha := hall a (List.mem_cons_self a t)
      have ht := ih hnd' v hv' h3 (fun y hy => hall y (List.mem_cons_of_mem _ hy))
      omega

theorem exists_pool_lt_two_of_big {counts : Counts} {chars : JsStr}
    (hsync : CountsSync counts chars) (hlen : chars.length ≤ 144) {v : Char}
    (hv : 3 ≤ counts v) : ∃ c ∈ fullPool, counts c < 2 := by
  by_contra hcon
  push_neg at hcon
  have hcount : ∀ c ∈ fullPool, 2 ≤ chars.count c := by
    intro c hc
    have := hcon c hc
    rw [hsync c] at this
    omega
  by_cases hm : v ∈ fullPool
  · have hbig : 3 ≤ chars.count v := by rw [← hsync v]; exact hv
    have h1 := sum_two_le_with_big (fun c => chars.count c) fullPool fullPool_nodup
      v hm hbig hcount
    have h2 := sum_counts_le fullPool fullPool_nodup chars
    have h3 : fullPool.length = 72 := rfl
    omega
  · have hnd : (v :: fullPool).Nodup := List.nodup_cons.mpr ⟨hm, fullPool_nodup⟩
    have h2 := sum_counts_le (v :: fullPool) hnd chars
    have hvc : 3 ≤ chars.count v := by rw [← hsync v]; exact hv
    have hsum : ((v :: fullPool).map fun c => chars.count c).sum =
        chars.count v + ((fullPool.map fun c => chars.count c).sum) := by
      simp
    have h1 := sum_two_le (fun c => chars.count c) fullPool hcount
    have h3 : fullPool.length = 72 := rfl
    omega

theorem exists_pool_lt_two_unknown {counts : Counts} {chars : JsStr}
    (hsync : CountsSync counts chars) (hlen : chars.length ≤ 144) {v : Char}
    (hv : 1 ≤ counts v) (hvp : v ∉ fullPool) : ∃ c ∈ fullPool, counts c < 2 := by
  by_contra hcon
  push_neg at hcon
  have hcount : ∀ c ∈ fullPool, 2 ≤ chars.count c := by
    intro c hc
    have := hcon c hc
    rw [hsync c] at this
    omega
  have hnd : (v :: fullPool).Nodup := List.nodup_cons.mpr ⟨hvp, fullPool_nodup⟩
  have h2 := sum_counts_le (v :: fullPool) hnd chars
  have hvc : 1 ≤ chars.count v := by rw [← hsync v]; exact hv
  have hsum : ((v :: fullPool).map fun c => chars.count c).sum =
      chars.count v + ((fullPool.map fun c => chars.count c).sum) := by
    simp
  have h1 := sum_two_le (fun c => chars.count c) fullPool hcount
  have h3 : fullPool.length = 72 := rfl
  omega

/-! Lock-step preservation and index bookkeeping for the fixer phases. -/

theorem getD_set_ne {chars : JsStr} {idx i : Nat} (rep : Char) (hne : idx ≠ i)
    (hi : i < chars.length) :
    (chars.set idx rep).getD i 'A' = chars.getD i 'A' := by
  have hi' : i < (chars.set idx rep).length := by rw [List.length_set]; exact hi
  rw [getD_of_lt' _ _ _ hi', getD_of_lt' _ _ _ hi]
  exact List.getElem_set_ne hne hi'

theorem getD_set_self {chars : JsStr} {idx : Nat} (rep : Char) (hidx : idx < chars.length) :
    (chars.set idx rep).getD idx 'A' = rep := by
  have hi' : idx < (chars.set idx rep).length := by rw [List.length_set]; exact hidx
  rw [getD_of_lt' _ _ _ hi']
  exact List.getElem_set_self hi'

theorem getD_mem_of_lt {chars : JsStr} {i : Nat} (hi : i < chars.length) :
    chars.getD i 'A' ∈ chars := by
  rw [getD_of_lt' _ _ _ hi]
  exact List.getElem_mem hi

theorem countsSync_set {counts : Counts} {chars : JsStr}
    (h : CountsSync counts chars) {idx : Nat} {ch rep : Char}
    (hidx : idx < chars.length) (hch : chars.getD idx 'A' = ch) :
    CountsSync (incr (decr counts ch) rep) (chars.set idx rep) := by
  rw [getD_of_lt' _ _ _ hidx] at hch
  have hmem : ch ∈ chars := by rw [← hch]; exact List.getElem_mem hidx
  have hpos : 1 ≤ chars.count ch := List.count_pos_iff.mpr hmem
  intro c
  have hcs := count_set rep c chars idx hidx
  rw [hch] at hcs
  have h1 := h c
  have h2 := h ch
  show (if c = rep then (if rep = ch then counts ch - 1 else counts rep) + 1
        else (if c = ch then counts ch - 1 else counts c)) = (chars.set idx rep).count c
  split_ifs with a b c'
  · have ecc : ch = c := (a.trans b).symm
    rw [if_pos ecc, if_pos (b.trans ecc)] at hcs
    rw [ecc] at h2 hpos ⊢
    omega
  · have hne : ¬ ch = c := fun e => b ((e.trans a).symm)
    rw [if_neg hne, if_pos a.symm] at hcs
    have hcr : counts rep = counts c := by rw [a]
    rw [hcr]
    omega
  · rw [if_pos c'.symm, if_neg (fun e => a e.symm)] at hcs
    rw [← c'] at h2 hpos ⊢
    omega
  · rw [if_neg (fun e => c' e.symm), if_neg (fun e => a e.symm)] at hcs
    omega

theorem countsSync_incr {counts : Counts} {chars : JsStr} (h : CountsSync counts chars)
    (ch : Char) : CountsSync (incr counts ch) (chars ++ [ch]) :=
  countsSync_incr_append h ch

/-! Properties of `idxAscend` and `revIndicesOf`. -/

theorem idxAscend_mem (ch : Char) :
    ∀ (l : JsStr) (n : Nat), ∀ i ∈ idxAscend ch l n,
      n ≤ i ∧ i - n < l.length ∧ l.getD (i - n) 'A' = ch := by
  intro l
  induction l with
  | nil => intro n i hi; cases hi
  | cons c rest ih =>
    intro n i hi
    unfold idxAscend at hi
    by_cases hc : c = ch
    · rw [if_pos hc] at hi
      rcases List.mem_cons.mp hi with rfl | hi'
      · refine ⟨le_refl i, by simp, ?_⟩
        simp [hc]
      · obtain ⟨h1, h2, h3⟩ := ih (n + 1) i hi'
        refine ⟨by omega, by simp; omega, ?_⟩
        have he : i - n = (i - (n + 1)) + 1 := by omega
        rw [he, List.getD_cons_succ]
        exact h3
    · rw [if_neg hc] at hi
      obtain ⟨h1, h2, h3⟩ := ih (n + 1) i hi
      refine ⟨by omega, by simp; omega, ?_⟩
      have he : i - n = (i - (n + 1)) + 1 := by omega
      rw [he, List.getD_cons_succ]
      exact h3

theorem idxAscend_ge (ch : Char) :
    ∀ (l : JsStr) (n : Nat), ∀ i ∈ idxAscend ch l n, n ≤ i := by
  intro l n i hi
  exact (idxAscend_mem ch l n i hi).1

theorem idxAscend_nodup (ch : Char) :
    ∀ (l : JsStr) (n : Nat), (idxAscend ch l n).Nodup := by
  intro l
  induction l with
  | nil => intro n; exact List.nodup_nil
  | cons c rest ih =>
    intro n
    unfold idxAscend
    by_cases hc : c = ch
    · rw [if_pos hc]
      refine List.nodup_cons.mpr ⟨?_, ih (n + 1)⟩
      intro hmem
      have := idxAscend_ge ch rest (n + 1) n hmem
      omega
    · rw [if_neg hc]
      exact ih (n + 1)

theorem idxAscend_length (ch : Char) :
    ∀ (l : JsStr) (n : Nat), (idxAscend ch l n).length = l.count ch := by
  intro l
  induction l with
  | nil => intro n; rfl
  | cons c rest ih =>
    intro n
    unfold idxAscend
    rw [List.count_cons]
    by_cases hc : c = ch
    · rw [if_pos hc, if_pos (by simp [hc])]
      simp [ih (n + 1)]
    · rw [if_neg hc, if_neg (by simp [hc])]
      simp [ih (n + 1)]

theorem revIndicesOf_mem {chars : JsStr} {ch : Char} :
    ∀ i ∈ revIndicesOf chars ch, i < chars.length ∧ chars.getD i 'A' = ch := by
  intro i hi
  unfold revIndicesOf at hi
  rw [List.mem_reverse] at hi
  obtain ⟨h1, h2, h3⟩ := idxAscend_mem ch chars 0 i hi
  rw [Nat.sub_zero] at h2 h3
  exact ⟨h2, h3⟩

theorem revIndicesOf_nodup (chars : JsStr) (ch : Char) : (revIndicesOf chars ch).Nodup := by
  unfold revIndicesOf
  rw [List.nodup_reverse]
  exact idxAscend_nodup ch chars 0

theorem revIndicesOf_length (chars : JsStr) (ch : Char) :
    (revIndicesOf chars ch).length = chars.count ch := by
  unfold revIndicesOf
  rw [List.length_reverse]
  exact idxAscend_length ch chars 0

/-! Properties of `distinctChars` and `violatorsExcess`. -/

theorem distinctChars_nodup_aux :
    ∀ (s : JsStr) (acc : JsStr), acc.Nodup →
      (s.foldl (fun acc ch => if ch ∈ acc then acc else acc ++ [ch]) acc).Nodup := by
  intro s
  induction s with
  | nil => intro acc h; exact h
  | cons x xs ih =>
    intro acc h
    rw [List.foldl_cons]
    by_cases hx : x ∈ acc
    · rw [if_pos hx]; exact ih acc h
    · rw [if_neg hx]
      refine ih (acc ++ [x]) ?_
      rw [List.nodup_append]
      refine ⟨h, List.nodup_singleton x, ?_⟩
      intro a ha hax
      rw [List.mem_singleton] at hax
      rw [hax] at ha
      exact hx ha

theorem distinctChars_nodup (s : JsStr) : (distinctChars s).Nodup :=
  distinctChars_nodup_aux s [] List.nodup_nil

theorem mem_violatorsExcess {s : JsStr} {ch : Char} {ex : Nat} :
    (ch, ex) ∈ violatorsExcess s ↔
      ch ∈ distinctChars s ∧ 2 < countChars s ch ∧ ex = countChars s ch - 2 := by
  unfold violatorsExcess
  rw [List.mem_filterMap]
  constructor
  · rintro ⟨a, ha, hf⟩
    by_cases hgt : 2 < countChars s a
    · rw [if_pos hgt] at hf
      obtain ⟨rfl, rfl⟩ : a = ch ∧ countChars s a - 2 = ex := by
        have := Option.some_injective _ hf
        exact ⟨congrArg Prod.fst this, congrArg Prod.snd this⟩
      exact ⟨ha, hgt, rfl⟩
    · rw [if_neg hgt] at hf
      cases hf
  · rintro ⟨hm, hgt, rfl⟩
    exact ⟨ch, hm, by rw [if_pos hgt]⟩

theorem violators_fst_sublist (s : JsStr) :
    ((violatorsExcess s).map Prod.fst).Sublist (distinctChars s) := by
  unfold violatorsExcess
  generalize distinctChars s = L
  induction L with
  | nil => exact List.Sublist.refl []
  | cons a t ih =>
    rw [List.filterMap_cons]
    by_cases hgt : 2 < countChars s a
    · rw [if_pos hgt]
      exact List.Sublist.cons₂ a ih
    · rw [if_neg hgt]
      exact List.Sublist.cons a ih

theorem violators_fst_nodup (s : JsStr) : ((violatorsExcess s).map Prod.fst).Nodup :=
  (violators_fst_sublist s).nodup (distinctChars_nodup s)

theorem violators_done (s : JsStr) (c : Char) :
    countChars s c ≤ 2 ∨ (c, countChars s c - 2) ∈ violatorsExcess s := by
  by_cases h : 2 < countChars s c
  · refine Or.inr (mem_violatorsExcess.mpr ⟨?_, h, rfl⟩)
    rw [mem_distinctChars]
    have : 0 < s.count c := by rw [← countChars_eq_count]; omega
    exact List.count_pos_iff.mp this
  · exact Or.inl (by omega)

theorem violatorsExcess_eq_nil (s : JsStr) (h : ∀ c, countChars s c ≤ 2) :
    violatorsExcess s = [] := by
  unfold violatorsExcess
  rw [List.filterMap_eq_nil_iff]
  intro a _
  rw [if_neg (by have := h a; omega)]

/-! Replay helper lemmas. -/

theorem replaySpec_nil (s : JsStr) : replaySpec s [] = some s := rfl

theorem replaySpec_cons_some {s s' : JsStr} {c : Change} (cs : List Change)
    (h : applyChangeSpec s c = some s') :
    replaySpec s (c :: cs) = replaySpec s' cs := by
  unfold replaySpec
  rw [List.foldl_cons]
  have hstep : (some s).bind (fun cur => applyChangeSpec cur c) = some s' := by
    rw [Option.some_bind]
    exact h
  rw [hstep]

theorem applyChangeSpec_subst {s : JsStr} {idx : Nat} {ch rep : Char}
    (hidx : idx < s.length) (hch : s.getD idx 'A' = ch) :
    applyChangeSpec s ⟨(idx : Int), JsVal.str [ch], rep⟩ = some (s.set idx rep) := by
  show (if 0 ≤ (idx : Int) ∧ (idx : Int) < (s.length : Int) then
          if s.getD ((idx : Int)).toNat 'A' = ch then some (s.set ((idx : Int)).toNat rep)
          else none
        else none) = some (s.set idx rep)
  have hb : 0 ≤ (idx : Int) ∧ (idx : Int) < (s.length : Int) :=
    ⟨Int.natCast_nonneg idx, by exact_mod_cast hidx⟩
  rw [if_pos hb]
  have ht : ((idx : Int)).toNat = idx := Int.toNat_natCast idx
  rw [ht, if_pos hch]

theorem applyChangeSpec_append (s : JsStr) (ch : Char) :
    applyChangeSpec s ⟨(s.length : Int), JsVal.str [], ch⟩ = some (s ++ [ch]) := by
  show (if (s.length : Int) = (s.length : Int) then some (s ++ [ch]) else none) = _
  rw [if_pos rfl]

/-! Properties of the phase-1 substitute selection. -/

theorem getPool_ne_nil {cls : CharClass} (h : cls ≠ CharClass.unknown) :
    getPool cls ≠ [] := by
  cases cls with
  | unknown => exact absurd rfl h
  | uppercase => decide
  | lowercase => decide
  | digit => decide
  | special => decide

theorem phase1Pick_props {g : Rng} {k : Nat} {counts : Counts} {ch rep : Char}
    (h : (phase1Pick g k counts ch).1 = some rep) :
    rep ∈ fullPool ∧ counts rep < 2 ∧
      (availInClass counts (classifyChar ch) ≠ [] →
        rep ∈ availInClass counts (classifyChar ch)) ∧
      (availInClass counts (classifyChar ch) = [] → rep ∈ availAny counts) := by
  unfold phase1Pick at h
  dsimp only at h
  by_cases hcls : classifyChar ch ≠ CharClass.unknown
  · rw [if_pos hcls, if_pos (getPool_ne_nil hcls)] at h
    rcases hp : (pickAvailable g k (getPool (classifyChar ch)) counts).1 with _ | r
    · rw [hp] at h
      obtain ⟨hm, hl⟩ := pickAnyAvailable_some h
      have hempty : availInClass counts (classifyChar ch) = [] := by
        have hnone := pickAvailable_none hp
        unfold availInClass
        rw [List.filter_eq_nil_iff]
        intro c hc
        simpa using hnone c hc
      refine ⟨hm, hl, fun hne => absurd hempty hne, fun _ => ?_⟩
      exact List.mem_filter.mpr ⟨hm, by simpa using hl⟩
    · rw [hp] at h
      have hr : r = rep := Option.some_injective _ h
      obtain ⟨hm, hl⟩ := pickAvailable_some hp
      subst hr
      have hmav : r ∈ availInClass counts (classifyChar ch) :=
        List.mem_filter.mpr ⟨hm, by simpa using hl⟩
      refine ⟨getPool_subset _ r hm, hl, fun _ => hmav, fun hemp => ?_⟩
      rw [hemp] at hmav
      cases hmav
  · rw [if_neg hcls] at h
    rw [if_neg (fun hc => hc rfl)] at h
    obtain ⟨hm, hl⟩ := pickAnyAvailable_some h
    push_neg at hcls
    have hempty : availInClass counts (classifyChar ch) = [] := by rw [hcls]; rfl
    exact ⟨hm, hl, fun hne => absurd hempty hne,
      fun _ => List.mem_filter.mpr ⟨hm, by simpa using hl⟩⟩

theorem phase1Pick_not_none {g : Rng} {k : Nat} {counts : Counts} {ch : Char}
    (havail : ∃ c ∈ fullPool, counts c < 2) :
    ∃ rep, (phase1Pick g k counts ch).1 = some rep := by
  obtain ⟨c, hc, hl⟩ := havail
  rcases hr : (phase1Pick g k counts ch).1 with _ | rep
  · exfalso
    unfold phase1Pick at hr
    dsimp only at hr
    by_cases hcls : classifyChar ch ≠ CharClass.unknown
    · rw [if_pos hcls, if_pos (getPool_ne_nil hcls)] at hr
      rcases hp : (pickAvailable g k (getPool (classifyChar ch)) counts).1 with _ | r
      · rw [hp] at hr
        obtain ⟨x, hx, -⟩ := pickAnyAvailable_not_none
          (k := (pickAvailable g k (getPool (classifyChar ch)) counts).2) hc hl
        rw [hr] at hx
        cases hx
      · rw [hp] at hr
        cases hr
    · rw [if_neg hcls] at hr
      rw [if_neg (fun hcon => hcon rfl)] at hr
      obtain ⟨x, hx, -⟩ := pickAnyAvailable_not_none (k := k) hc hl
      rw [hr] at hx
      cases hx
  · exact ⟨rep, rfl⟩

/-! The phase-1 master lemma. -/

/-- What one violator's processing guarantees: lock-step counts, preserved
length and `-1` slot, the violator brought down to exactly 2, all other
counts monotone (unchanged unless now at most 2), positions changed only
into pool characters, and the recorded changes both satisfy the claimed
phase-1 description and replay to the output string. -/
structure Phase1Out (s0 : FixState) (ch : Char) (excess replaced : Nat)
    (idxs : List Nat) (out : FixState) : Prop where
  sync : CountsSync out.counts out.chars
  len : out.chars.length = s0.chars.length
  negp : out.neg = s0.neg
  done : out.counts ch = 2
  mono : ∀ c, c ≠ ch →
    s0.counts c ≤ out.counts c ∧ (out.counts c = s0.counts c ∨ out.counts c ≤ 2)
  posn : ∀ i, i < s0.chars.length →
    out.chars.getD i 'A' = s0.chars.getD i 'A' ∨ out.chars.getD i 'A' ∈ fullPool
  chg : ∃ delta, out.changes = s0.changes ++ delta ∧
    checkViolatorSpec ch (idxs.take (excess - replaced)) s0.chars s0.counts delta =
      some (out.chars, out.counts, []) ∧
    replaySpec s0.chars delta = some out.chars

theorem phase1Idx_cons_eq (g : Rng) (ch : Char) (excess idx : Nat) (rest : List Nat)
    (replaced : Nat) (st : FixState) (k : Nat) :
    phase1Idx g ch excess (idx :: rest) replaced st k =
      if excess ≤ replaced then (st, k)
      else
        match (phase1Pick g k st.counts ch).1 with
        | some rep =>
          phase1Idx g ch excess rest (replaced + 1)
            ⟨st.chars.set idx rep, st.neg, incr (decr st.counts ch) rep,
              st.changes ++ [⟨(idx : Int), JsVal.str [ch], rep⟩]⟩
            (phase1Pick g k st.counts ch).2
        | none => phase1Idx g ch excess rest replaced st (phase1Pick g k st.counts ch).2 :=
  rfl

theorem phase1Idx_master (g : Rng) (ch : Char) (excess : Nat) :
    ∀ (idxs : List Nat) (replaced : Nat) (st : FixState) (k : Nat),
      CountsSync st.counts st.chars →
      st.chars.length ≤ 144 →
      idxs.Nodup →
      (∀ i ∈ idxs, i < st.chars.length ∧ st.chars.getD i 'A' = ch) →
      st.counts ch = (excess - replaced) + 2 →
      replaced ≤ excess →
      excess - replaced ≤ idxs.length →
      Phase1Out st ch excess replaced idxs (phase1Idx g ch excess idxs replaced st k).1 := by
  intro idxs
  induction idxs with
  | nil =>
    intro replaced st k h1 h2 h3 h4 h5 h6 h7
    have hz : excess - replaced = 0 := by simpa using h7
    rw [show phase1Idx g ch excess [] replaced st k = (st, k) from rfl]
    refine ⟨h1, rfl, rfl, show st.counts ch = 2 by omega,
      fun c _ => ⟨le_refl _, Or.inl rfl⟩,
      fun i _ => Or.inl rfl, [], (List.append_nil _).symm, ?_, replaySpec_nil _⟩
    rw [hz]
    rfl
  | cons idx rest ih =>
    intro replaced st k h1 h2 h3 h4 h5 h6 h7
    have h7' : excess - (replaced + 1) ≤ rest.length := by
      rw [List.length_cons] at h7
      omega
    rw [phase1Idx_cons_eq]
    by_cases hbr : excess ≤ replaced
    · rw [if_pos hbr]
      have hz : excess - replaced = 0 := by omega
      refine ⟨h1, rfl, rfl, show st.counts ch = 2 by omega,
        fun c _ => ⟨le_refl _, Or.inl rfl⟩,
        fun i _ => Or.inl rfl, [], (List.append_nil _).symm, ?_, replaySpec_nil _⟩
      rw [hz]
      rfl
    · rw [if_neg hbr]
      have hlt : replaced < excess := by omega
      have hbig : 3 ≤ st.counts ch := by omega
      have havail := exists_pool_lt_two_of_big h1 h2 hbig
      obtain ⟨rep, hrep⟩ := @phase1Pick_not_none g k st.counts ch havail
      rw [hrep]
      obtain ⟨hrp, hrl, hpref1, hpref2⟩ := phase1Pick_props hrep
      obtain ⟨hidx, hchidx⟩ := h4 idx (List.mem_cons_self idx rest)
      have hrepne : rep ≠ ch := by
        intro e
        rw [e] at hrl
        omega
      set st1 : FixState := ⟨st.chars.set idx rep, st.neg, incr (decr st.counts ch) rep,
        st.changes ++ [⟨(idx : Int), JsVal.str [ch], rep⟩]⟩ with hst1
      have hsync1 : CountsSync st1.counts st1.chars := countsSync_set h1 hidx hchidx
      have hlen1 : st1.chars.length = st.chars.length := List.length_set _ _ _
      have hcount1 : st1.counts ch = (excess - (replaced + 1)) + 2 := by
        show incr (decr st.counts ch) rep ch = _
        show (if ch = rep then decr st.counts ch rep + 1 else decr st.counts ch ch) = _
        rw [if_neg (fun e => hrepne e.symm)]
        show (if ch = ch then st.counts ch - 1 else st.counts ch) = _
        rw [if_pos rfl]
        omega
      have hother1 : ∀ c, c ≠ ch →
          st1.counts c = (if c = rep then st.counts c + 1 else st.counts c) := by
        intro c hc
        show (if c = rep then decr st.counts ch rep + 1 else decr st.counts ch c) = _
        by_cases e : c = rep
        · rw [if_pos e, if_pos e]
          show (if rep = ch then st.counts ch - 1 else st.counts rep) + 1 = _
          rw [if_neg hrepne, e]
        · rw [if_neg e, if_neg e]
          show (if c = ch then st.counts ch - 1 else st.counts c) = _
          rw [if_neg hc]
      have h4' : ∀ i ∈ rest, i < st1.chars.length ∧ st1.chars.getD i 'A' = ch := by
        intro i hi
        obtain ⟨hb, hv⟩ := h4 i (List.mem_cons_of_mem idx hi)
        have hne : idx ≠ i := by
          intro e
          rw [e] at h3
          exact (List.nodup_cons.mp h3).1 hi
        refine ⟨by rw [hlen1]; exact hb, ?_⟩
        show (st.chars.set idx rep).getD i 'A' = ch
        rw [getD_set_ne rep hne hb]
        exact hv
      have hout := ih (replaced + 1) st1 (phase1Pick g k st.counts ch).2 hsync1
        (by rw [hlen1]; exact h2) (List.nodup_cons.mp h3).2 h4' hcount1 (by omega) h7'
      set out := (phase1Idx g ch excess rest (replaced + 1) st1
        (phase1Pick g k st.counts ch).2).1 with hout_def
      refine ⟨hout.sync, by rw [hout.len, hlen1], hout.negp, hout.done, ?_, ?_, ?_⟩
      · intro c hc
        obtain ⟨hm1, hm2⟩ := hout.mono c hc
        have hstep := hother1 c hc
        by_cases e : c = rep
        · rw [if_pos e] at hstep
          constructor
          · omega
          · rcases hm2 with hm2 | hm2
            · right
              rw [hm2, hstep, e]
              omega
            · exact Or.inr hm2
        · rw [if_neg e] at hstep
          constructor
          · omega
          · rcases hm2 with hm2 | hm2
            · exact Or.inl (by rw [hm2, hstep])
            · exact Or.inr hm2
      · intro i hilt
        have hilt1 : i < st1.chars.length := by rw [hlen1]; exact hilt
        rcases hout.posn i (by rw [hlen1]; exact hilt) with hp | hp
        · by_cases e : idx = i
          · right
            rw [hp]
            subst e
            show (st.chars.set idx rep).getD idx 'A' ∈ fullPool
            rw [getD_set_self rep hidx]
            exact hrp
          · left
            rw [hp]
            show (st.chars.set idx rep).getD i 'A' = st.chars.getD i 'A'
            exact getD_set_ne rep e hilt
        · exact Or.inr hp
      · obtain ⟨delta1, hd1, hd2, hd3⟩ := hout.chg
        refine ⟨⟨(idx : Int), JsVal.str [ch], rep⟩ :: delta1, ?_, ?_, ?_⟩
        · rw [hd1]
          show st1.changes ++ delta1 = st.changes ++ _
          rw [hst1]
          simp
        · have htake : (idx :: rest).take (excess - replaced) =
              idx :: rest.take (excess - (replaced + 1)) := by
            have : excess - replaced = (excess - (replaced + 1)) + 1 := by omega
            rw [this, List.take_succ_cons]
          rw [htake]
          show (if (idx : Int) = (idx : Int) ∧ JsVal.str [ch] = JsVal.str [ch] ∧
                (if availInClass st.counts (classifyChar ch) ≠ [] then
                  rep ∈ availInClass st.counts (classifyChar ch)
                else rep ∈ availAny st.counts) then
              checkViolatorSpec ch (rest.take (excess - (replaced + 1)))
                (st.chars.set idx rep) (incr (decr st.counts ch) rep) delta1
            else none) = some (out.chars, out.counts, [])
          have hpref : (if availInClass st.counts (classifyChar ch) ≠ [] then
              rep ∈ availInClass st.counts (classifyChar ch)
            else rep ∈ availAny st.counts) := by
            by_cases he : availInClass st.counts (classifyChar ch) ≠ []
            · rw [if_pos he]
              exact hpref1 he
            · rw [if_neg he]
              push_neg at he
              exact hpref2 he
          rw [if_pos ⟨rfl, rfl, hpref⟩]
          exact hd2
        · have happ := @applyChangeSpec_subst st.chars idx ch rep hidx hchidx
          rw [replaySpec_cons_some delta1 happ]
          exact hd3

/-! Composition lemmas for the claim-side checkers and the replay. -/

theorem checkViolatorSpec_cons (ch : Char) (idx : Nat) (rest : List Nat) (chars : JsStr)
    (counts : Counts) (c : Change) (cs : List Change) :
    checkViolatorSpec ch (idx :: rest) chars counts (c :: cs) =
      if c.index = (idx : Int) ∧ c.from' = JsVal.str [ch] ∧
          (if availInClass counts (classifyChar ch) ≠ [] then
            c.to' ∈ availInClass counts (classifyChar ch)
          else c.to' ∈ availAny counts) then
        checkViolatorSpec ch rest (chars.set idx c.to') (incr (decr counts ch) c.to') cs
      else none := rfl

theorem checkViolatorSpec_cons_nil (ch : Char) (idx : Nat) (rest : List Nat)
    (chars : JsStr) (counts : Counts) :
    checkViolatorSpec ch (idx :: rest) chars counts [] = none := rfl

theorem checkViolatorSpec_append {ch : Char} :
    ∀ (idxs : List Nat) (chars : JsStr) (counts : Counts) (cs : List Change)
      {chars' : JsStr} {counts' : Counts},
      checkViolatorSpec ch idxs chars counts cs = some (chars', counts', []) →
      ∀ cs2, checkViolatorSpec ch idxs chars counts (cs ++ cs2) =
        some (chars', counts', cs2) := by
  intro idxs
  induction idxs with
  | nil =>
    intro chars counts cs chars' counts' h cs2
    have h' : (chars, counts, cs) = (chars', counts', ([] : List Change)) :=
      Option.some_injective _ h
    have h1 : chars = chars' := congrArg (fun t => t.1) h'
    have h2 : counts = counts' := congrArg (fun t => t.2.1) h'
    have h3 : cs = [] := congrArg (fun t => t.2.2) h'
    subst h3
    show some (chars, counts, [] ++ cs2) = some (chars', counts', cs2)
    rw [h1, h2, List.nil_append]
  | cons idx rest ih =>
    intro chars counts cs chars' counts' h cs2
    rcases cs with _ | ⟨c, cs'⟩
    · rw [checkViolatorSpec_cons_nil] at h
      cases h
    · rw [List.cons_append, checkViolatorSpec_cons]
      rw [checkViolatorSpec_cons] at h
      by_cases hc : c.index = (idx : Int) ∧ c.from' = JsVal.str [ch] ∧
          (if availInClass counts (classifyChar ch) ≠ [] then
            c.to' ∈ availInClass counts (classifyChar ch)
          else c.to' ∈ availAny counts)
      · rw [if_pos hc] at h ⊢
        exact ih _ _ _ h cs2
      · rw [if_neg hc] at h
        exact Option.noConfusion h

theorem phase1ClaimGo_cons (ch : Char) (excess : Nat) (rest : List (Char × Nat))
    (chars : JsStr) (counts : Counts) (cs : List Change) :
    phase1ClaimGo ((ch, excess) :: rest) chars counts cs =
      match checkViolatorSpec ch ((revIndicesOf chars ch).take excess) chars counts cs with
      | some (chars', counts', cs') => phase1ClaimGo rest chars' counts' cs'
      | none => false := rfl

theorem replaySpec_append_some {s s' : JsStr} {cs1 : List Change}
    (h : replaySpec s cs1 = some s') (cs2 : List Change) :
    replaySpec s (cs1 ++ cs2) = replaySpec s' cs2 := by
  unfold replaySpec at h ⊢
  rw [List.foldl_append, h]

theorem foldl_replay_none :
    ∀ (cs : List Change),
      cs.foldl (fun acc c => acc.bind fun cur => applyChangeSpec cur c) none = none := by
  intro cs
  induction cs with
  | nil => rfl
  | cons c rest ih =>
    rw [List.foldl_cons]
    exact ih

theorem replaySpec_cons_none {s : JsStr} {c : Change} (h : applyChangeSpec s c = none)
    (cs : List Change) : replaySpec s (c :: cs) = none := by
  unfold replaySpec
  rw [List.foldl_cons]
  have hstep : (some s).bind (fun cur => applyChangeSpec cur c) = none := by
    rw [Option.some_bind]
    exact h
  rw [hstep]
  exact foldl_replay_none cs

theorem decrVal_le (counts : Counts) (v : JsVal) (c : Char) : decrVal counts v c ≤ counts c := by
  cases v with
  | undef => exact le_refl _
  | str s =>
    rcases s with _ | ⟨a, t⟩
    · exact le_refl _
    · rcases t with _ | ⟨b, t2⟩
      · show (if c = a then counts a - 1 else counts c) ≤ counts c
        by_cases e : c = a
        · rw [if_pos e, e]
          omega
        · rw [if_neg e]
      · exact le_refl _

/-! Phase 1 over the whole violator list. -/

theorem phase1Go_cons_eq (g : Rng) (ch : Char) (excess : Nat) (rest : List (Char × Nat))
    (st : FixState) (k : Nat) :
    phase1Go g ((ch, excess) :: rest) st k =
      phase1Go g rest (phase1Idx g ch excess (revIndicesOf st.chars ch) 0 st k).1
        (phase1Idx g ch excess (revIndicesOf st.chars ch) 0 st k).2 := rfl

theorem phase1Go_master (g : Rng) :
    ∀ (vs : List (Char × Nat)) (st : FixState) (k : Nat),
      CountsSync st.counts st.chars →
      st.chars.length ≤ 144 →
      (∀ p ∈ vs, st.counts p.1 = p.2 + 2 ∧ 1 ≤ p.2) →
      ((vs.map Prod.fst).Nodup) →
      CountsSync (phase1Go g vs st k).1.counts (phase1Go g vs st k).1.chars ∧
        (phase1Go g vs st k).1.chars.length = st.chars.length ∧
        (∀ p ∈ vs, (phase1Go g vs st k).1.counts p.1 = 2) ∧
        (∀ c, (∀ p ∈ vs, c ≠ p.1) →
          st.counts c ≤ (phase1Go g vs st k).1.counts c ∧
            ((phase1Go g vs st k).1.counts c = st.counts c ∨
              (phase1Go g vs st k).1.counts c ≤ 2)) ∧
        ∃ delta, (phase1Go g vs st k).1.changes = st.changes ++ delta ∧
          (∀ cs, phase1ClaimGo vs st.chars st.counts (delta ++ cs) = decide (cs = [])) ∧
          replaySpec st.chars delta = some (phase1Go g vs st k).1.chars := by
  intro vs
  induction vs with
  | nil =>
    intro st k h1 h2 h3 h4
    rw [show phase1Go g [] st k = (st, k) from rfl]
    exact ⟨h1, rfl, fun p hp => absurd hp (List.not_mem_nil p),
      fun c _ => ⟨le_refl _, Or.inl rfl⟩, [], (List.append_nil _).symm,
      fun cs => by rw [List.nil_append]; rfl, replaySpec_nil _⟩
  | cons hd rest ih =>
    obtain ⟨ch, excess⟩ := hd
    intro st k h1 h2 h3 h4
    rw [phase1Go_cons_eq]
    have h4' : (ch :: rest.map Prod.fst).Nodup := by simpa using h4
    obtain ⟨hcnt0, hex0⟩ := h3 (ch, excess) (List.mem_cons_self _ _)
    have hcnt : st.counts ch = excess + 2 := hcnt0
    have hidxlen : excess ≤ (revIndicesOf st.chars ch).length := by
      rw [revIndicesOf_length, ← h1 ch]
      omega
    have hP := phase1Idx_master g ch excess (revIndicesOf st.chars ch) 0 st k h1 h2
      (revIndicesOf_nodup st.chars ch) (fun i hi => revIndicesOf_mem i hi)
      (by rw [Nat.sub_zero]; exact hcnt) (Nat.zero_le _)
      (by rw [Nat.sub_zero]; exact hidxlen)
    set st1 := (phase1Idx g ch excess (revIndicesOf st.chars ch) 0 st k).1 with hst1
    set k1 := (phase1Idx g ch excess (revIndicesOf st.chars ch) 0 st k).2 with hk1
    have hchne : ∀ p ∈ rest, p.1 ≠ ch := by
      intro p hp e
      have hmem : ch ∈ rest.map Prod.fst := by
        rw [← e]
        exact List.mem_map_of_mem Prod.fst hp
      exact (List.nodup_cons.mp h4').1 hmem
    have h3' : ∀ p ∈ rest, st1.counts p.1 = p.2 + 2 ∧ 1 ≤ p.2 := by
      intro p hp
      obtain ⟨hc, he⟩ := h3 p (List.mem_cons_of_mem _ hp)
      obtain ⟨hm1, hm2⟩ := hP.mono p.1 (hchne p hp)
      refine ⟨?_, he⟩
      rcases hm2 with h | h
      · rw [h, hc]
      · omega
    have hrec := ih st1 k1 hP.sync (by rw [hP.len]; exact h2) h3'
      (List.nodup_cons.mp h4').2
    obtain ⟨rsync, rlen, rdone, rmono, delta2, rd1, rd2, rd3⟩ := hrec
    refine ⟨rsync, by rw [rlen, hP.len], ?_, ?_, ?_⟩
    · intro p hp
      rcases List.mem_cons.mp hp with rfl | hp'
      · show (phase1Go g rest st1 k1).1.counts ch = 2
        obtain ⟨hm1, hm2⟩ := rmono ch (fun q hq e => hchne q hq e.symm)
        have hdone := hP.done
        rcases hm2 with h | h
        · rw [h]
          exact hdone
        · omega
      · exact rdone p hp'
    · intro c hc
      have hc1 : c ≠ ch := hc (ch, excess) (List.mem_cons_self _ _)
      have hcr : ∀ p ∈ rest, c ≠ p.1 := fun p hp => hc p (List.mem_cons_of_mem _ hp)
      obtain ⟨a1, a2⟩ := hP.mono c hc1
      obtain ⟨b1, b2⟩ := rmono c hcr
      refine ⟨le_trans a1 b1, ?_⟩
      rcases a2 with a2 | a2
      · rcases b2 with b2 | b2
        · exact Or.inl (by rw [b2, a2])
        · exact Or.inr b2
      · rcases b2 with b2 | b2
        · exact Or.inr (by rw [b2]; exact a2)
        · exact Or.inr b2
    · obtain ⟨delta1, hd1, hd2, hd3⟩ := hP.chg
      rw [Nat.sub_zero] at hd2
      refine ⟨delta1 ++ delta2, ?_, ?_, ?_⟩
      · rw [rd1, hd1, List.append_assoc]
      · intro cs
        rw [List.append_assoc, phase1ClaimGo_cons,
          checkViolatorSpec_append _ _ _ _ hd2 (delta2 ++ cs)]
        exact rd2 cs
      · rw [replaySpec_append_some hd3 delta2]
        exact rd3

/-! A common transition summary for the fixer's phases 2-4. -/

/-- What one fixer phase preserves: the array never shrinks, the lock-step
counts invariant is preserved whenever the array is nonempty (so the `-1`
property slot is never written), the weak bound `count ≤ counts ≤ 2` is
preserved, and the recorded changes replay onto the output (again provided
the array is nonempty, since a `-1` write is not replayable). -/
structure PhaseOut (st out : FixState) : Prop where
  len : st.chars.length ≤ out.chars.length
  sync : st.chars ≠ [] → CountsSync st.counts st.chars → CountsSync out.counts out.chars
  winv : (∀ c, st.chars.count c ≤ st.counts c ∧ st.counts c ≤ 2) →
    ∀ c, out.chars.count c ≤ out.counts c ∧ out.counts c ≤ 2
  chg : ∃ delta, out.changes = st.changes ++ delta ∧
    (st.chars ≠ [] → replaySpec st.chars delta = some out.chars)

theorem PhaseOut.here (st : FixState) : PhaseOut st st :=
  ⟨le_refl _, fun _ h => h, fun h => h,
    ⟨[], (List.append_nil _).symm, fun _ => replaySpec_nil _⟩⟩

theorem PhaseOut.trans {s1 s2 s3 : FixState} (a : PhaseOut s1 s2) (b : PhaseOut s2 s3) :
    PhaseOut s1 s3 := by
  have hne2 : s1.chars ≠ [] → s2.chars ≠ [] := by
    intro hne
    have h1 : 0 < s1.chars.length := List.length_pos.mpr hne
    exact List.length_pos.mp (lt_of_lt_of_le h1 a.len)
  refine ⟨le_trans a.len b.len, ?_, fun h => b.winv (a.winv h), ?_⟩
  · intro hne hs
    exact b.sync (hne2 hne) (a.sync hne hs)
  · obtain ⟨d1, ha1, ha2⟩ := a.chg
    obtain ⟨d2, hb1, hb2⟩ := b.chg
    refine ⟨d1 ++ d2, by rw [hb1, ha1, List.append_assoc], ?_⟩
    intro hne
    rw [replaySpec_append_some (ha2 hne) d2]
    exact hb2 (hne2 hne)

/-! The phase-2 position scan. -/

theorem scanBest_nil (chars : JsStr) (t : CharClass) (cc : CharClass → Nat)
    (bidx : Int) (bs : Nat) : scanBest chars t cc [] bidx bs = bidx := rfl

theorem scanBest_cons (chars : JsStr) (t : CharClass) (cc : CharClass → Nat)
    (i : Nat) (rest : List Nat) (bidx : Int) (bs : Nat) :
    scanBest chars t cc (i :: rest) bidx bs =
      if classifyChar (chars.getD i 'A') = t then scanBest chars t cc rest bidx bs
      else if classifyChar (chars.getD i 'A') = CharClass.unknown then (i : Int)
      else if 1 < cc (classifyChar (chars.getD i 'A')) ∧
          bs < cc (classifyChar (chars.getD i 'A')) then
        scanBest chars t cc rest (i : Int) (cc (classifyChar (chars.getD i 'A')))
      else scanBest chars t cc rest bidx bs := rfl

theorem scanBest_cases (chars : JsStr) (t : CharClass) (cc : CharClass → Nat) :
    ∀ (l : List Nat) (bidx : Int) (bs : Nat),
      scanBest chars t cc l bidx bs = bidx ∨
        ∃ i ∈ l, scanBest chars t cc l bidx bs = (i : Int) := by
  intro l
  induction l with
  | nil => intro bidx bs; exact Or.inl rfl
  | cons i rest ih =>
    intro bidx bs
    rw [scanBest_cons]
    by_cases h1 : classifyChar (chars.getD i 'A') = t
    · rw [if_pos h1]
      rcases ih bidx bs with h | ⟨j, hj, he⟩
      · exact Or.inl h
      · exact Or.inr ⟨j, List.mem_cons_of_mem _ hj, he⟩
    · rw [if_neg h1]
      by_cases h2 : classifyChar (chars.getD i 'A') = CharClass.unknown
      · rw [if_pos h2]
        exact Or.inr ⟨i, List.mem_cons_self _ _, rfl⟩
      · rw [if_neg h2]
        by_cases h3 : 1 < cc (classifyChar (chars.getD i 'A')) ∧
            bs < cc (classifyChar (chars.getD i 'A'))
        · rw [if_pos h3]
          rcases ih (i : Int) (cc (classifyChar (chars.getD i 'A'))) with h | ⟨j, hj, he⟩
          · exact Or.inr ⟨i, List.mem_cons_self _ _, h⟩
          · exact Or.inr ⟨j, List.mem_cons_of_mem _ hj, he⟩
        · rw [if_neg h3]
          rcases ih bidx bs with h | ⟨j, hj, he⟩
          · exact Or.inl h
          · exact Or.inr ⟨j, List.mem_cons_of_mem _ hj, he⟩

theorem readAt_natCast {st : FixState} {j : Nat} (hj : j < st.chars.length) :
    readAt st (j : Int) = JsVal.str [st.chars.getD j 'A'] := by
  unfold readAt
  rw [if_neg (by omega), if_pos ⟨by omega, by exact_mod_cast hj⟩, Int.toNat_natCast]

theorem writeAt_natCast (st : FixState) (j : Nat) (rep : Char) :
    writeAt st (j : Int) rep = { st with chars := st.chars.set j rep } := by
  unfold writeAt
  rw [if_neg (by omega), Int.toNat_natCast]

theorem phase2_bestIdx (st : FixState) (t : CharClass) (hne : st.chars ≠ []) :
    ∃ j : Nat, j < st.chars.length ∧
      (if scanBest st.chars t (classCountsOf st.chars)
            (List.range st.chars.length).reverse (-1) 0 = -1
        then (st.chars.length : Int) - 1
        else scanBest st.chars t (classCountsOf st.chars)
          (List.range st.chars.length).reverse (-1) 0) = (j : Int) := by
  have hpos : 0 < st.chars.length := List.length_pos.mpr hne
  rcases scanBest_cases st.chars t (classCountsOf st.chars)
      (List.range st.chars.length).reverse (-1) 0 with h | ⟨i, hi, h⟩
  · refine ⟨st.chars.length - 1, by omega, ?_⟩
    rw [h, if_pos rfl]
    omega
  · have hi' : i < st.chars.length := List.mem_range.mp (List.mem_reverse.mp hi)
    refine ⟨i, hi', ?_⟩
    rw [h, if_neg (by omega)]

/-! The weak counts invariant is preserved by an in-range substitution. -/

theorem winv_set_step {counts : Counts} {chars : JsStr} {j : Nat} (hj : j < chars.length)
    {rep : Char} (hrl : counts rep < 2)
    (hw : ∀ c, chars.count c ≤ counts c ∧ counts c ≤ 2) :
    ∀ c, (chars.set j rep).count c ≤ incr (decr counts (chars.getD j 'A')) rep c ∧
      incr (decr counts (chars.getD j 'A')) rep c ≤ 2 := by
  intro c
  have hold : chars.getD j 'A' = chars[j] := getD_of_lt' _ _ _ hj
  have hpos : 1 ≤ chars.count (chars[j]) :=
    List.count_pos_iff.mpr (List.getElem_mem hj)
  have hcs := count_set rep c chars j hj
  have h1 := hw c
  rw [hold]
  simp only [incr, decr]
  by_cases e1 : c = rep
  · rw [if_pos e1]
    by_cases e2 : rep = chars[j]
    · rw [if_pos e2]
      rw [if_pos (e1.trans e2).symm, if_pos e1.symm] at hcs
      have b1 : counts (chars[j]) = counts c := by rw [← e2, ← e1]
      have b2 : chars.count (chars[j]) = chars.count c := by rw [← e2, ← e1]
      omega
    · rw [if_neg e2]
      rw [if_neg (fun h => e2 (e1.symm.trans h.symm)), if_pos e1.symm] at hcs
      have b1 : counts rep = counts c := by rw [← e1]
      omega
  · rw [if_neg e1]
    by_cases e2 : c = chars[j]
    · rw [if_pos e2]
      rw [if_pos e2.symm, if_neg (fun h => e1 h.symm)] at hcs
      have b1 : counts (chars[j]) = counts c := by rw [← e2]
      have b2 : chars.count (chars[j]) = chars.count c := by rw [← e2]
      omega
    · rw [if_neg e2]
      rw [if_neg (fun h => e2 h.symm), if_neg (fun h => e1 h.symm)] at hcs
      omega

/-! Phase 2: one class check. -/

theorem phase2Check_skip {g : Rng} {t : CharClass} {st : FixState} {k : Nat}
    (h : classTest st.chars t = true) : phase2Check g t st k = (st, k) := by
  unfold phase2Check
  rw [if_pos h]

theorem writeAt_chars_length (st : FixState) (i : Int) (c : Char) :
    (writeAt st i c).chars.length = st.chars.length := by
  unfold writeAt
  split_ifs
  · rfl
  · exact List.length_set _ _ _

theorem phase2Check_len (g : Rng) (t : CharClass) (st : FixState) (k : Nat) :
    (phase2Check g t st k).1.chars.length = st.chars.length := by
  unfold phase2Check
  dsimp only
  by_cases hct : classTest st.chars t = true
  · rw [if_pos hct]
  · rw [if_neg hct]
    rcases hp : (pickAvailable g k (getPool t) st.counts).1 with _ | rep
    · rfl
    · exact writeAt_chars_length st _ rep

theorem phase2Check_phaseOut (g : Rng) (t : CharClass) (st : FixState) (k : Nat) :
    PhaseOut st (phase2Check g t st k).1 := by
  unfold phase2Check
  dsimp only
  by_cases hct : classTest st.chars t = true
  · rw [if_pos hct]
    exact PhaseOut.here st
  · rw [if_neg hct]
    rcases hp : (pickAvailable g k (getPool t) st.counts).1 with _ | rep
    · exact PhaseOut.here st
    · dsimp only
      obtain ⟨hrm, hrl⟩ := pickAvailable_some hp
      by_cases hne : st.chars = []
      · have hB : (if scanBest st.chars t (classCountsOf st.chars)
              (List.range st.chars.length).reverse (-1) 0 = -1
            then (st.chars.length : Int) - 1
            else scanBest st.chars t (classCountsOf st.chars)
              (List.range st.chars.length).reverse (-1) 0) = -1 := by
          rw [hne]
          rfl
        rw [hB]
        have hread : readAt st (-1) = st.neg := by
          unfold readAt
          rw [if_pos rfl]
        have hwrite : writeAt st (-1) rep = { st with neg := JsVal.str [rep] } := by
          unfold writeAt
          rw [if_pos rfl]
        rw [hread, hwrite]
        refine ⟨le_refl _, fun h _ => absurd hne h, ?_, ?_⟩
        · intro hw c
          have hd := decrVal_le st.counts st.neg
          constructor
          · show st.chars.count c ≤ incr (decrVal st.counts st.neg) rep c
            rw [hne]
            have hz : ([] : JsStr).count c = 0 := rfl
            omega
          · show incr (decrVal st.counts st.neg) rep c ≤ 2
            simp only [incr]
            by_cases e : c = rep
            · rw [if_pos e]
              have hdr := hd rep
              omega
            · rw [if_neg e]
              have hdc := hd c
              have h2 := (hw c).2
              omega
        · exact ⟨[⟨-1, st.neg, rep⟩], rfl, fun h => absurd hne h⟩
      · obtain ⟨j, hj, hbj⟩ := phase2_bestIdx st t hne
        rw [hbj, readAt_natCast hj, writeAt_natCast st j rep]
        refine ⟨?_, ?_, ?_, ?_⟩
        · show st.chars.length ≤ (st.chars.set j rep).length
          exact le_of_eq (List.length_set st.chars j rep).symm
        · intro _ hs
          exact countsSync_set hs hj rfl
        · intro hw
          exact winv_set_step hj hrl hw
        · refine ⟨[⟨(j : Int), JsVal.str [st.chars.getD j 'A'], rep⟩], rfl, fun _ => ?_⟩
          rw [replaySpec_cons_some [] (applyChangeSpec_subst hj rfl)]
          exact replaySpec_nil _

theorem phase2_phaseOut (g : Rng) (st : FixState) (k : Nat) :
    PhaseOut st (phase2 g st k).1 := by
  unfold phase2
  dsimp only
  exact (((phase2Check_phaseOut g CharClass.uppercase st k).trans
    (phase2Check_phaseOut g CharClass.lowercase _ _)).trans
    (phase2Check_phaseOut g CharClass.digit _ _)).trans
    (phase2Check_phaseOut g CharClass.special _ _)

theorem phase2_len (g : Rng) (st : FixState) (k : Nat) :
    (phase2 g st k).1.chars.length = st.chars.length := by
  unfold phase2
  dsimp only
  rw [phase2Check_len, phase2Check_len, phase2Check_len, phase2Check_len]

/-! Phase 3: the length-8 top-up loop. -/

theorem phase3Loop_succ_eq (g : Rng) (fuel : Nat) (st : FixState) (k : Nat) :
    phase3Loop g (fuel + 1) st k =
      if st.chars.length < 8 then
        match (pickAnyAvailable g k st.counts).1 with
        | none => (st, (pickAnyAvailable g k st.counts).2)
        | some ch =>
          phase3Loop g fuel
            ⟨st.chars ++ [ch], st.neg, incr st.counts ch,
              st.changes ++ [⟨(st.chars.length : Int), JsVal.str [], ch⟩]⟩
            (pickAnyAvailable g k st.counts).2
      else (st, k) := rfl

theorem phase3Loop_skip {g : Rng} {st : FixState} {k : Nat} (h : 8 ≤ st.chars.length) :
    ∀ fuel, phase3Loop g fuel st k = (st, k) := by
  intro fuel
  cases fuel with
  | zero => rfl
  | succ n => rw [phase3Loop_succ_eq, if_neg (by omega)]

theorem phase3Loop_main (g : Rng) :
    ∀ (fuel : Nat) (st : FixState) (k : Nat),
      PhaseOut st (phase3Loop g fuel st k).1 ∧
        (∃ app, (phase3Loop g fuel st k).1.chars = st.chars ++ app ∧
          ∀ c ∈ app, c ∈ fullPool) ∧
        (phase3Loop g fuel st k).1.chars.length ≤ max st.chars.length 8 := by
  intro fuel
  induction fuel with
  | zero =>
    intro st k
    exact ⟨PhaseOut.here st,
      ⟨[], (List.append_nil _).symm, fun c hc => absurd hc (List.not_mem_nil c)⟩,
      le_max_left _ _⟩
  | succ n ih =>
    intro st k
    rw [phase3Loop_succ_eq]
    by_cases h8 : st.chars.length < 8
    · rw [if_pos h8]
      rcases hp : (pickAnyAvailable g k st.counts).1 with _ | ch
      · exact ⟨PhaseOut.here st,
          ⟨[], (List.append_nil _).symm, fun c hc => absurd hc (List.not_mem_nil c)⟩,
          le_max_left _ _⟩
      · dsimp only
        obtain ⟨hcm, hcl⟩ := pickAnyAvailable_some hp
        set st1 : FixState := ⟨st.chars ++ [ch], st.neg, incr st.counts ch,
          st.changes ++ [⟨(st.chars.length : Int), JsVal.str [], ch⟩]⟩ with hst1
        obtain ⟨ihP, ⟨app1, happ1, happ2⟩, ihmax⟩ := ih st1 (pickAnyAvailable g k st.counts).2
        have hstep : PhaseOut st st1 := by
          refine ⟨?_, ?_, ?_, ?_⟩
          · show st.chars.length ≤ (st.chars ++ [ch]).length
            rw [List.length_append]
            omega
          · intro _ hs
            exact countsSync_incr hs ch
          · intro hw c
            have h1 := hw c
            have h2 := hw ch
            show (st.chars ++ [ch]).count c ≤ incr st.counts ch c ∧ incr st.counts ch c ≤ 2
            rw [List.count_append]
            simp only [incr]
            by_cases e : c = ch
            · rw [if_pos e, e]
              have hone : ([ch] : JsStr).count ch = 1 := by simp
              omega
            · rw [if_neg e]
              have hzero : ([ch] : JsStr).count c = 0 :=
                List.count_eq_zero.mpr (by simp [e])
              omega
          · refine ⟨[⟨(st.chars.length : Int), JsVal.str [], ch⟩], rfl, fun _ => ?_⟩
            rw [replaySpec_cons_some [] (applyChangeSpec_append st.chars ch)]
            exact replaySpec_nil _
        refine ⟨hstep.trans ihP, ⟨ch :: app1, ?_, ?_⟩, ?_⟩
        · rw [happ1]
          show st1.chars ++ app1 = st.chars ++ (ch :: app1)
          rw [hst1]
          simp
        · intro c hc
          rcases List.mem_cons.mp hc with rfl | hc'
          · exact hcm
          · exact happ2 c hc'
        · have hlen1 : st1.chars.length = st.chars.length + 1 := by
            rw [hst1]
            simp
          rw [hlen1] at ihmax
          have e1 : max (st.chars.length + 1) 8 = 8 := Nat.max_eq_right (by omega)
          have e2 : max st.chars.length 8 = 8 := Nat.max_eq_right (by omega)
          rw [e1] at ihmax
          rw [e2]
          exact ihmax
    · rw [if_neg h8]
      exact ⟨PhaseOut.here st,
        ⟨[], (List.append_nil _).symm, fun c hc => absurd hc (List.not_mem_nil c)⟩,
        le_max_left _ _⟩

/-! Phase 4: the unknown-character sweep. -/

theorem phase4Go_cons_eq (g : Rng) (i : Nat) (rest : List Nat) (st : FixState) (k : Nat) :
    phase4Go g (i :: rest) st k =
      if classifyChar (st.chars.getD i 'A') = CharClass.unknown then
        match (pickAnyAvailable g k st.counts).1 with
        | some rep =>
          phase4Go g rest
            ⟨st.chars.set i rep, st.neg,
              incr (decr st.counts (st.chars.getD i 'A')) rep,
              st.changes ++ [⟨(i : Int), JsVal.str [st.chars.getD i 'A'], rep⟩]⟩
            (pickAnyAvailable g k st.counts).2
        | none => phase4Go g rest st (pickAnyAvailable g k st.counts).2
      else phase4Go g rest st k := rfl

theorem phase4Go_skip {g : Rng} :
    ∀ (idxs : List Nat) (st : FixState) (k : Nat),
      (∀ i ∈ idxs, classifyChar (st.chars.getD i 'A') ≠ CharClass.unknown) →
      phase4Go g idxs st k = (st, k) := by
  intro idxs
  induction idxs with
  | nil => intro st k _; rfl
  | cons i rest ih =>
    intro st k h
    rw [phase4Go_cons_eq, if_neg (h i (List.mem_cons_self _ _))]
    exact ih st k (fun j hj => h j (List.mem_cons_of_mem _ hj))

theorem phase4Go_main (g : Rng) :
    ∀ (idxs : List Nat) (st : FixState) (k : Nat),
      (∀ i ∈ idxs, i < st.chars.length) →
      PhaseOut st (phase4Go g idxs st k).1 ∧
        (phase4Go g idxs st k).1.chars.length = st.chars.length := by
  intro idxs
  induction idxs with
  | nil =>
    intro st k _
    exact ⟨PhaseOut.here st, rfl⟩
  | cons i rest ih =>
    intro st k hin
    have hi : i < st.chars.length := hin i (List.mem_cons_self _ _)
    rw [phase4Go_cons_eq]
    by_cases hcl : classifyChar (st.chars.getD i 'A') = CharClass.unknown
    · rw [if_pos hcl]
      rcases hp : (pickAnyAvailable g k st.counts).1 with _ | rep
      · exact ih st _ (fun j hj => hin j (List.mem_cons_of_mem _ hj))
      · dsimp only
        obtain ⟨hrm, hrl⟩ := pickAnyAvailable_some hp
        set st1 : FixState := ⟨st.chars.set i rep, st.neg,
          incr (decr st.counts (st.chars.getD i 'A')) rep,
          st.changes ++ [⟨(i : Int), JsVal.str [st.chars.getD i 'A'], rep⟩]⟩ with hst1
        have hlen1 : st1.chars.length = st.chars.length := List.length_set _ _ _
        obtain ⟨ihP, ihlen⟩ := ih st1 (pickAnyAvailable g k st.counts).2
          (fun j hj => by rw [hlen1]; exact hin j (List.mem_cons_of_mem _ hj))
        have hstep : PhaseOut st st1 := by
          refine ⟨le_of_eq hlen1.symm, ?_, ?_, ?_⟩
          · intro _ hs
            exact countsSync_set hs hi rfl
          · intro hw
            exact winv_set_step hi hrl hw
          · refine ⟨[⟨(i : Int), JsVal.str [st.chars.getD i 'A'], rep⟩], rfl, fun _ => ?_⟩
            rw [replaySpec_cons_some [] (applyChangeSpec_subst hi rfl)]
            exact replaySpec_nil _
        exact ⟨hstep.trans ihP, by rw [ihlen, hlen1]⟩
    · rw [if_neg hcl]
      exact ih st k (fun j hj => hin j (List.mem_cons_of_mem _ hj))

theorem phase4Go_complete (g : Rng) :
    ∀ (idxs : List Nat) (st : FixState) (k : Nat),
      (∀ i ∈ idxs, i < st.chars.length) → idxs.Nodup →
      CountsSync st.counts st.chars → st.chars.length ≤ 144 →
      CountsSync (phase4Go g idxs st k).1.counts (phase4Go g idxs st k).1.chars ∧
        (phase4Go g idxs st k).1.chars.length = st.chars.length ∧
        (∀ i ∈ idxs,
          classifyChar ((phase4Go g idxs st k).1.chars.getD i 'A') ≠ CharClass.unknown) ∧
        (∀ j, j ∉ idxs → j < st.chars.length →
          (phase4Go g idxs st k).1.chars.getD j 'A' = st.chars.getD j 'A') := by
  intro idxs
  induction idxs with
  | nil =>
    intro st k _ _ hs _
    exact ⟨hs, rfl, fun i hi => absurd hi (List.not_mem_nil i), fun j _ _ => rfl⟩
  | cons i rest ih =>
    intro st k hin hnd hs hlen
    have hi : i < st.chars.length := hin i (List.mem_cons_self _ _)
    have hirest : i ∉ rest := (List.nodup_cons.mp hnd).1
    rw [phase4Go_cons_eq]
    by_cases hcl : classifyChar (st.chars.getD i 'A') = CharClass.unknown
    · rw [if_pos hcl]
      have hmem : st.chars.getD i 'A' ∈ st.chars := getD_mem_of_lt hi
      have hcount : 1 ≤ st.counts (st.chars.getD i 'A') := by
        rw [hs]
        exact List.count_pos_iff.mpr hmem
      have hnp : st.chars.getD i 'A' ∉ fullPool := fun hmp =>
        classify_ne_unknown_of_mem_pool hmp hcl
      obtain ⟨c0, hc0, hl0⟩ := exists_pool_lt_two_unknown hs hlen hcount hnp
      obtain ⟨rep, hp, hrm, hrl⟩ := pickAnyAvailable_not_none hc0 hl0
      rw [hp]
      dsimp only
      set st1 : FixState := ⟨st.chars.set i rep, st.neg,
        incr (decr st.counts (st.chars.getD i 'A')) rep,
        st.changes ++ [⟨(i : Int), JsVal.str [st.chars.getD i 'A'], rep⟩]⟩ with hst1
      have hlen1 : st1.chars.length = st.chars.length := List.length_set _ _ _
      have hs1 : CountsSync st1.counts st1.chars := countsSync_set hs hi rfl
      obtain ⟨rsync, rlen, rall, roff⟩ := ih st1 (pickAnyAvailable g k st.counts).2
        (fun j hj => by rw [hlen1]; exact hin j (List.mem_cons_of_mem _ hj))
        (List.nodup_cons.mp hnd).2 hs1 (by rw [hlen1]; exact hlen)
      refine ⟨rsync, by rw [rlen, hlen1], ?_, ?_⟩
      · intro j hj
        rcases List.mem_cons.mp hj with he | hj'
        · subst he
          rw [roff j hirest (by rw [hlen1]; exact hi)]
          show classifyChar ((st.chars.set j rep).getD j 'A') ≠ CharClass.unknown
          rw [getD_set_self rep hi]
          exact classify_ne_unknown_of_mem_pool hrm
        · exact rall j hj'
      · intro j hj hjlen
        have hji : j ≠ i := fun e => hj (by rw [e]; exact List.mem_cons_self _ _)
        have hjr : j ∉ rest := fun hr => hj (List.mem_cons_of_mem _ hr)
        rw [roff j hjr (by rw [hlen1]; exact hjlen)]
        show (st.chars.set i rep).getD j 'A' = st.chars.getD j 'A'
        exact getD_set_ne rep (fun e => hji e.symm) hjlen
    · rw [if_neg hcl]
      obtain ⟨rsync, rlen, rall, roff⟩ := ih st k
        (fun j hj => hin j (List.mem_cons_of_mem _ hj)) (List.nodup_cons.mp hnd).2 hs hlen
      refine ⟨rsync, rlen, ?_,
        fun j hj hjl => roff j (fun hr => hj (List.mem_cons_of_mem _ hr)) hjl⟩
      intro j hj
      rcases List.mem_cons.mp hj with he | hj'
      · subst he
        rw [roff j hirest hi]
        exact hcl
      · exact rall j hj'

/-! Phase 1 replays its changes without any availability assumptions. -/

theorem phase1Idx_replay (g : Rng) (ch : Char) (excess : Nat) :
    ∀ (idxs : List Nat) (replaced : Nat) (st : FixState) (k : Nat),
      idxs.Nodup →
      (∀ i ∈ idxs, i < st.chars.length ∧ st.chars.getD i 'A' = ch) →
      (phase1Idx g ch excess idxs replaced st k).1.chars.length = st.chars.length ∧
        ∃ delta, (phase1Idx g ch excess idxs replaced st k).1.changes =
            st.changes ++ delta ∧
          replaySpec st.chars delta =
            some (phase1Idx g ch excess idxs replaced st k).1.chars := by
  intro idxs
  induction idxs with
  | nil =>
    intro replaced st k _ _
    exact ⟨rfl, [], (List.append_nil _).symm, replaySpec_nil _⟩
  | cons idx rest ih =>
    intro replaced st k hnd h4
    rw [phase1Idx_cons_eq]
    by_cases hbr : excess ≤ replaced
    · rw [if_pos hbr]
      exact ⟨rfl, [], (List.append_nil _).symm, replaySpec_nil _⟩
    · rw [if_neg hbr]
      obtain ⟨hidx, hchidx⟩ := h4 idx (List.mem_cons_self _ _)
      rcases hrep : (phase1Pick g k st.counts ch).1 with _ | rep
      · exact ih replaced st _ (List.nodup_cons.mp hnd).2
          (fun i hi => h4 i (List.mem_cons_of_mem _ hi))
      · dsimp only
        set st1 : FixState := ⟨st.chars.set idx rep, st.neg, incr (decr st.counts ch) rep,
          st.changes ++ [⟨(idx : Int), JsVal.str [ch], rep⟩]⟩ with hst1
        have hlen1 : st1.chars.length = st.chars.length := List.length_set _ _ _
        have h4' : ∀ i ∈ rest, i < st1.chars.length ∧ st1.chars.getD i 'A' = ch := by
          intro i hi
          obtain ⟨hb, hv⟩ := h4 i (List.mem_cons_of_mem _ hi)
          have hne : idx ≠ i := fun e => (List.nodup_cons.mp hnd).1 (e ▸ hi)
          refine ⟨by rw [hlen1]; exact hb, ?_⟩
          show (st.chars.set idx rep).getD i 'A' = ch
          rw [getD_set_ne rep hne hb]
          exact hv
        obtain ⟨rlen, delta1, rd1, rd2⟩ := ih (replaced + 1) st1
          (phase1Pick g k st.counts ch).2 (List.nodup_cons.mp hnd).2 h4'
        refine ⟨by rw [rlen, hlen1], ⟨(idx : Int), JsVal.str [ch], rep⟩ :: delta1, ?_, ?_⟩
        · rw [rd1, hst1]
          simp
        · rw [replaySpec_cons_some delta1
            (@applyChangeSpec_subst st.chars idx ch rep hidx hchidx)]
          exact rd2

theorem phase1Go_replay (g : Rng) :
    ∀ (vs : List (Char × Nat)) (st : FixState) (k : Nat),
      (phase1Go g vs st k).1.chars.length = st.chars.length ∧
        ∃ delta, (phase1Go g vs st k).1.changes = st.changes ++ delta ∧
          replaySpec st.chars delta = some (phase1Go g vs st k).1.chars := by
  intro vs
  induction vs with
  | nil =>
    intro st k
    exact ⟨rfl, [], (List.append_nil _).symm, replaySpec_nil _⟩
  | cons hd rest ih =>
    obtain ⟨ch, excess⟩ := hd
    intro st k
    rw [phase1Go_cons_eq]
    obtain ⟨alen, delta1, ad1, ad2⟩ := phase1Idx_replay g ch excess
      (revIndicesOf st.chars ch) 0 st k (revIndicesOf_nodup st.chars ch)
      (fun i hi => revIndicesOf_mem i hi)
    obtain ⟨blen, delta2, bd1, bd2⟩ := ih
      (phase1Idx g ch excess (revIndicesOf st.chars ch) 0 st k).1
      (phase1Idx g ch excess (revIndicesOf st.chars ch) 0 st k).2
    refine ⟨by rw [blen, alen], delta1 ++ delta2, ?_, ?_⟩
    · rw [bd1, ad1, List.append_assoc]
    · rw [replaySpec_append_some ad2 delta2]
      exact bd2

/-- The state right after phase 1 of an attempt on `s` (`s.length ≤ 144`):
counts in lock-step with the array, length unchanged, every count at
most 2. -/
theorem phase1Go_after (g : Rng) (s : JsStr) (k : Nat) (hlen : s.length ≤ 144) :
    CountsSync (phase1Go g (violatorsExcess s) (initState s) k).1.counts
        (phase1Go g (violatorsExcess s) (initState s) k).1.chars ∧
      (phase1Go g (violatorsExcess s) (initState s) k).1.chars.length = s.length ∧
      (∀ c, (phase1Go g (violatorsExcess s) (initState s) k).1.counts c ≤ 2) := by
  have hsync : CountsSync (initState s).counts (initState s).chars :=
    fun c => countChars_eq_count s c
  have hvs : ∀ p ∈ violatorsExcess s, (initState s).counts p.1 = p.2 + 2 ∧ 1 ≤ p.2 := by
    intro p hp
    rcases p with ⟨pc, pe⟩
    obtain ⟨-, hgt, hex⟩ := mem_violatorsExcess.mp hp
    exact ⟨show countChars s pc = pe + 2 by omega, by omega⟩
  obtain ⟨msync, mlen, mdone, mmono, -⟩ := phase1Go_master g (violatorsExcess s)
    (initState s) k hsync hlen hvs (violators_fst_nodup s)
  refine ⟨msync, mlen, ?_⟩
  intro c
  by_cases hc : ∀ p ∈ violatorsExcess s, c ≠ p.1
  · obtain ⟨m1, m2⟩ := mmono c hc
    rcases m2 with m2 | m2
    · rw [m2]
      rcases violators_done s c with h | h
      · exact h
      · exact absurd rfl (hc _ h)
    · exact m2
  · push_neg at hc
    obtain ⟨p, hp, he⟩ := hc
    rw [he]
    exact le_of_eq (mdone p hp)

/-! Bridges from the validator's rule predicates to phase 2's class tests. -/

theorem classTest_upper {s : JsStr} (h : ∃ c ∈ s, 'A' ≤ c ∧ c ≤ 'Z') :
    classTest s CharClass.uppercase = true := by
  obtain ⟨c, hc, h1, h2⟩ := h
  show s.any (fun c => decide ('A' ≤ c ∧ c ≤ 'Z')) = true
  rw [List.any_eq_true]
  exact ⟨c, hc, by simpa using And.intro h1 h2⟩

theorem classTest_lower {s : JsStr} (h : ∃ c ∈ s, 'a' ≤ c ∧ c ≤ 'z') :
    classTest s CharClass.lowercase = true := by
  obtain ⟨c, hc, h1, h2⟩ := h
  show s.any (fun c => decide ('a' ≤ c ∧ c ≤ 'z')) = true
  rw [List.any_eq_true]
  exact ⟨c, hc, by simpa using And.intro h1 h2⟩

theorem classTest_digit {s : JsStr} (h : ∃ c ∈ s, '0' ≤ c ∧ c ≤ '9') :
    classTest s CharClass.digit = true := by
  obtain ⟨c, hc, h1, h2⟩ := h
  show s.any (fun c => decide ('0' ≤ c ∧ c ≤ '9')) = true
  rw [List.any_eq_true]
  exact ⟨c, hc, by simpa using And.intro h1 h2⟩

theorem classTest_special {s : JsStr} (h : ∃ c ∈ s, c ∈ SPECIAL_CHARS) :
    classTest s CharClass.special = true := by
  obtain ⟨c, hc, hm⟩ := h
  show s.any (fun c => decide (c ∈ SPECIAL_CHARS)) = true
  rw [List.any_eq_true]
  exact ⟨c, hc, by simpa using hm⟩
/-! Whole-attempt lemmas for `tryFix`.  The four stages of an attempt get
irreducible names so that facts about them compose syntactically, without
the elaborator ever evaluating the symbolic phase chain. -/

@[irreducible] def attemptP1 (g : Rng) (k : Nat) (s : JsStr) : FixState × Nat :=
  phase1 g s (initState s) k

@[irreducible] def attemptP2 (g : Rng) (k : Nat) (s : JsStr) : FixState × Nat :=
  phase2 g (attemptP1 g k s).1 (attemptP1 g k s).2

@[irreducible] def attemptP3 (g : Rng) (k : Nat) (s : JsStr) : FixState × Nat :=
  phase3Loop g 8 (attemptP2 g k s).1 (attemptP2 g k s).2

@[irreducible] def attemptP4 (g : Rng) (k : Nat) (s : JsStr) : FixState × Nat :=
  phase4Go g (List.range (attemptP3 g k s).1.chars.length) (attemptP3 g k s).1
    (attemptP3 g k s).2

theorem attemptP1_eq (g : Rng) (k : Nat) (s : JsStr) :
    phase1 g s (initState s) k = attemptP1 g k s := by
  unfold attemptP1
  rfl

theorem attemptP1_go_eq (g : Rng) (k : Nat) (s : JsStr) :
    phase1Go g (violatorsExcess s) (initState s) k = attemptP1 g k s := by
  unfold attemptP1 phase1
  rfl

theorem attemptP2_eq (g : Rng) (k : Nat) (s : JsStr) :
    phase2 g (attemptP1 g k s).1 (attemptP1 g k s).2 = attemptP2 g k s := by
  unfold attemptP2
  rfl

theorem attemptP3_eq (g : Rng) (k : Nat) (s : JsStr) :
    phase3Loop g 8 (attemptP2 g k s).1 (attemptP2 g k s).2 = attemptP3 g k s := by
  unfold attemptP3
  rfl

theorem attemptP4_eq (g : Rng) (k : Nat) (s : JsStr) :
    phase4Go g (List.range (attemptP3 g k s).1.chars.length) (attemptP3 g k s).1
      (attemptP3 g k s).2 = attemptP4 g k s := by
  unfold attemptP4
  rfl

theorem tryFix_parts (g : Rng) (k : Nat) (s : JsStr) :
    tryFix g k s =
      (⟨s, (attemptP4 g k s).1.chars, (attemptP4 g k s).1.changes,
        (validate (attemptP4 g k s).1.chars).overall⟩, (attemptP4 g k s).2) := by
  unfold tryFix
  dsimp only
  rw [attemptP1_eq, attemptP2_eq, attemptP3_eq, attemptP4_eq]

theorem tryFix_count_le (g : Rng) (k : Nat) (s : JsStr) (hlen : s.length ≤ 144) :
    ∀ c, (tryFix g k s).1.fixed.count c ≤ 2 := by
  have A := phase1Go_after g s k hlen
  rw [attemptP1_go_eq] at A
  obtain ⟨msync, -, mle⟩ := A
  have hw1 : ∀ c, (attemptP1 g k s).1.chars.count c ≤ (attemptP1 g k s).1.counts c ∧
      (attemptP1 g k s).1.counts c ≤ 2 :=
    fun c => ⟨le_of_eq (msync c).symm, mle c⟩
  have P2 := phase2_phaseOut g (attemptP1 g k s).1 (attemptP1 g k s).2
  rw [attemptP2_eq] at P2
  have P3t := phase3Loop_main g 8 (attemptP2 g k s).1 (attemptP2 g k s).2
  rw [attemptP3_eq] at P3t
  obtain ⟨P3, -, -⟩ := P3t
  have P4t := phase4Go_main g (List.range (attemptP3 g k s).1.chars.length)
    (attemptP3 g k s).1 (attemptP3 g k s).2 (fun i hi => List.mem_range.mp hi)
  rw [attemptP4_eq] at P4t
  obtain ⟨P4, -⟩ := P4t
  have hcomb := ((P2.trans P3).trans P4).winv hw1
  intro c
  rw [tryFix_parts]
  dsimp only
  exact le_trans (hcomb c).1 (hcomb c).2

theorem tryFix_pool_closed (g : Rng) (k : Nat) (s : JsStr) (hlen : s.length ≤ 144) :
    ∀ c, c ∈ (tryFix g k s).1.fixed → c ∈ fullPool := by
  by_cases hne : s = []
  · subst hne
    have e2 : attemptP2 g k ([] : JsStr) = phase2 g (initState []) k := by
      unfold attemptP2 attemptP1
      rfl
    have hl2 : (attemptP2 g k ([] : JsStr)).1.chars.length = 0 := by
      rw [e2, phase2_len]
      rfl
    have hc2 : (attemptP2 g k ([] : JsStr)).1.chars = [] := List.length_eq_zero.mp hl2
    have P3t := phase3Loop_main g 8 (attemptP2 g k ([] : JsStr)).1
      (attemptP2 g k ([] : JsStr)).2
    rw [attemptP3_eq] at P3t
    obtain ⟨-, ⟨app, happ, hpool⟩, -⟩ := P3t
    have hall3 : ∀ c ∈ (attemptP3 g k ([] : JsStr)).1.chars, c ∈ fullPool := by
      intro c hc
      rw [happ, hc2, List.nil_append] at hc
      exact hpool c hc
    have h4 : attemptP4 g k ([] : JsStr) =
        ((attemptP3 g k ([] : JsStr)).1, (attemptP3 g k ([] : JsStr)).2) := by
      unfold attemptP4
      exact phase4Go_skip _ _ _ (fun i hi => by
        have hilt : i < (attemptP3 g k ([] : JsStr)).1.chars.length := List.mem_range.mp hi
        exact classify_ne_unknown_of_mem_pool (hall3 _ (getD_mem_of_lt hilt)))
    intro c hc
    rw [tryFix_parts] at hc
    dsimp only at hc
    rw [h4] at hc
    exact hall3 c hc
  · have A := phase1Go_after g s k hlen
    rw [attemptP1_go_eq] at A
    obtain ⟨msync, mlen, -⟩ := A
    have hne1 : (attemptP1 g k s).1.chars ≠ [] := by
      intro he
      apply hne
      rw [he] at mlen
      exact List.length_eq_zero.mp mlen.symm
    have P2 := phase2_phaseOut g (attemptP1 g k s).1 (attemptP1 g k s).2
    have hplen := phase2_len g (attemptP1 g k s).1 (attemptP1 g k s).2
    rw [attemptP2_eq] at P2 hplen
    have hsync2 : CountsSync (attemptP2 g k s).1.counts (attemptP2 g k s).1.chars :=
      P2.sync hne1 msync
    have hlen2 : (attemptP2 g k s).1.chars.length = s.length := by
      rw [hplen, mlen]
    have hne2 : (attemptP2 g k s).1.chars ≠ [] := by
      intro he
      apply hne
      rw [he] at hlen2
      exact List.length_eq_zero.mp hlen2.symm
    have P3t := phase3Loop_main g 8 (attemptP2 g k s).1 (attemptP2 g k s).2
    rw [attemptP3_eq] at P3t
    obtain ⟨P3, -, hmax3⟩ := P3t
    have hsync3 : CountsSync (attemptP3 g k s).1.counts (attemptP3 g k s).1.chars :=
      P3.sync hne2 hsync2
    have hlen3 : (attemptP3 g k s).1.chars.length ≤ 144 := by
      refine le_trans hmax3 ?_
      rw [hlen2]
      exact Nat.max_le.mpr ⟨hlen, by omega⟩
    have C4 := phase4Go_complete g (List.range (attemptP3 g k s).1.chars.length)
      (attemptP3 g k s).1 (attemptP3 g k s).2 (fun i hi => List.mem_range.mp hi)
      (List.nodup_range _) hsync3 hlen3
    rw [attemptP4_eq] at C4
    obtain ⟨-, rlen, rall, -⟩ := C4
    intro c hc
    rw [tryFix_parts] at hc
    dsimp only at hc
    obtain ⟨i, hi, hgi⟩ := List.mem_iff_getElem.mp hc
    have hilt : i < (attemptP3 g k s).1.chars.length := by
      rw [← rlen]
      exact hi
    have hcl := rall i (List.mem_range.mpr hilt)
    rw [getD_of_lt' _ _ _ hi, hgi] at hcl
    exact mem_pool_of_classify_known hcl

theorem tryFix_replay (g : Rng) (k : Nat) (s : JsStr) (hne : s ≠ []) :
    (tryFix g k s).1.original = s ∧
      replaySpec s (tryFix g k s).1.changes = some (tryFix g k s).1.fixed ∧
      s.length ≤ (tryFix g k s).1.fixed.length := by
  have A := phase1Go_replay g (violatorsExcess s) (initState s) k
  rw [attemptP1_go_eq] at A
  obtain ⟨alen0, d1, a1, a2⟩ := A
  have alen : (attemptP1 g k s).1.chars.length = s.length := alen0
  have hne1 : (attemptP1 g k s).1.chars ≠ [] := by
    intro he
    apply hne
    rw [he] at alen
    exact List.length_eq_zero.mp alen.symm
  have P2 := phase2_phaseOut g (attemptP1 g k s).1 (attemptP1 g k s).2
  rw [attemptP2_eq] at P2
  have P3t := phase3Loop_main g 8 (attemptP2 g k s).1 (attemptP2 g k s).2
  rw [attemptP3_eq] at P3t
  obtain ⟨P3, -, -⟩ := P3t
  have P4t := phase4Go_main g (List.range (attemptP3 g k s).1.chars.length)
    (attemptP3 g k s).1 (attemptP3 g k s).2 (fun i hi => List.mem_range.mp hi)
  rw [attemptP4_eq] at P4t
  obtain ⟨P4, -⟩ := P4t
  have C := (P2.trans P3).trans P4
  obtain ⟨d2, c1, c2⟩ := C.chg
  rw [tryFix_parts]
  refine ⟨rfl, ?_, ?_⟩
  · dsimp only
    rw [c1, a1]
    rw [show (initState s).changes = ([] : List Change) from rfl, List.nil_append]
    have a2' : replaySpec s d1 = some (attemptP1 g k s).1.chars := a2
    rw [replaySpec_append_some a2' d2]
    exact c2 hne1
  · dsimp only
    have hl := C.len
    omega

theorem tryFix_valid_id (g : Rng) (k : Nat) (s : JsStr)
    (hv : (validate s).overall = true) (hp : ∀ c ∈ s, c ∈ fullPool) :
    tryFix g k s = (⟨s, s, [], true⟩, k) := by
  obtain ⟨hl, hu, hlo, hsp, hdg, hcnt⟩ := (validate_overall_iff s).mp hv
  have hvex : violatorsExcess s = [] := violatorsExcess_eq_nil s (fun c => by
    rw [countChars_eq_count]
    exact hcnt c)
  have hlen8 : 8 ≤ s.length := by
    rw [← utf16Len_eq_length_of_pool s hp]
    exact hl
  have a1 : attemptP1 g k s = (initState s, k) := by
    unfold attemptP1 phase1
    rw [hvex]
    rfl
  have e1 : phase2Check g CharClass.uppercase (initState s) k = (initState s, k) :=
    phase2Check_skip (classTest_upper hu)
  have e2 : phase2Check g CharClass.lowercase (initState s) k = (initState s, k) :=
    phase2Check_skip (classTest_lower hlo)
  have e3 : phase2Check g CharClass.digit (initState s) k = (initState s, k) :=
    phase2Check_skip (classTest_digit hdg)
  have e4 : phase2Check g CharClass.special (initState s) k = (initState s, k) :=
    phase2Check_skip (classTest_special hsp)
  have a2 : attemptP2 g k s = (initState s, k) := by
    unfold attemptP2
    rw [a1]
    dsimp only
    unfold phase2
    dsimp only
    rw [e1]
    dsimp only
    rw [e2]
    dsimp only
    rw [e3]
    dsimp only
    rw [e4]
  have a3 : attemptP3 g k s = (initState s, k) := by
    unfold attemptP3
    rw [a2]
    dsimp only
    exact phase3Loop_skip hlen8 8
  have a4 : attemptP4 g k s = (initState s, k) := by
    unfold attemptP4
    rw [a3]
    dsimp only
    exact phase4Go_skip _ _ _ (fun i hi => by
      have hilt : i < s.length := List.mem_range.mp hi
      exact classify_ne_unknown_of_mem_pool (hp _ (getD_mem_of_lt hilt)))
  rw [tryFix_parts, a4]
  dsimp only [initState]
  rw [hv]

theorem tryFix_empty_first (g : Rng) (k : Nat) :
    ∃ r rest, (tryFix g k ([] : JsStr)).1.changes = ⟨-1, JsVal.undef, r⟩ :: rest := by
  obtain ⟨r1, hr1⟩ := @pickAvailable_not_none g k (getPool CharClass.uppercase)
    (initState ([] : JsStr)).counts 'A' (by decide) (by decide)
  have h2c : (phase2Check g CharClass.uppercase (initState []) k).1.changes =
      [⟨-1, JsVal.undef, r1⟩] := by
    unfold phase2Check
    dsimp only
    rw [if_neg (by decide), hr1]
    rfl
  set q1 := phase2Check g CharClass.uppercase (initState []) k with hq1
  obtain ⟨d2, hd2, -⟩ := (phase2Check_phaseOut g CharClass.lowercase q1.1 q1.2).chg
  set q2 := phase2Check g CharClass.lowercase q1.1 q1.2 with hq2
  obtain ⟨d3, hd3, -⟩ := (phase2Check_phaseOut g CharClass.digit q2.1 q2.2).chg
  set q3 := phase2Check g CharClass.digit q2.1 q2.2 with hq3
  obtain ⟨d4, hd4, -⟩ := (phase2Check_phaseOut g CharClass.special q3.1 q3.2).chg
  set q4 := phase2Check g CharClass.special q3.1 q3.2 with hq4
  have hq : (attemptP2 g k ([] : JsStr)).1.changes = q4.1.changes := by
    rw [hq4, hq3, hq2, hq1]
    unfold attemptP2 attemptP1
    rfl
  have P3t := phase3Loop_main g 8 (attemptP2 g k ([] : JsStr)).1
    (attemptP2 g k ([] : JsStr)).2
  rw [attemptP3_eq] at P3t
  obtain ⟨P3, -, -⟩ := P3t
  obtain ⟨d5, hd5, -⟩ := P3.chg
  have P4t := phase4Go_main g (List.range (attemptP3 g k ([] : JsStr)).1.chars.length)
    (attemptP3 g k ([] : JsStr)).1 (attemptP3 g k ([] : JsStr)).2
    (fun i hi => List.mem_range.mp hi)
  rw [attemptP4_eq] at P4t
  obtain ⟨P4, -⟩ := P4t
  obtain ⟨d6, hd6, -⟩ := P4.chg
  refine ⟨r1, d2 ++ d3 ++ d4 ++ d5 ++ d6, ?_⟩
  rw [tryFix_parts]
  dsimp only
  rw [hd6, hd5, hq, hd4, hd3, hd2, h2c]
  simp

/-- C3, amended: `fix` leaves a valid password alone provided all of its
characters belong to the four class alphabets; a valid password containing
a character outside them (class Unknown) is modified by phase 4, so the
extra hypothesis is necessary. -/
theorem c3_idempotent_amended (g : Rng) (s : JsStr)
    (hv : (validate s).overall = true) (hp : ∀ c ∈ s, c ∈ fullPool) :
    (fix g s).changes = [] ∧ (fix g s).fixed = s := by
  have ht := tryFix_valid_id g 0 s hv hp
  have hfl : fixLoop g 0 3 s = (⟨s, s, [], true⟩, 0) := by
    rw [show (3 : Nat) = 2 + 1 from rfl, fixLoop_succ, ht, if_pos rfl]
  unfold fix
  rw [hfl]
  exact ⟨rfl, rfl⟩

theorem c3_idempotent_amended_witness :
    (validate "Abcdef1#".data).overall = true ∧
      (∀ c ∈ "Abcdef1#".data, c ∈ fullPool) ∧
      ((fix g0 "Abcdef1#".data).changes = [] ∧
        (fix g0 "Abcdef1#".data).fixed = "Abcdef1#".data) :=
  ⟨by decide, by decide,
    c3_idempotent_amended g0 "Abcdef1#".data (by decide) (by decide)⟩

/-- C5, amended: for inputs of length at most 144 (twice the 72-character
pool), every character occurs at most twice in `fix`'s output; longer
inputs can exhaust the pool and keep a character at count 3 or more. -/
theorem c5_repeat_limit_amended (g : Rng) (s : JsStr) (h : s.length ≤ 144) :
    ∀ c, (fix g s).fixed.count c ≤ 2 := by
  obtain ⟨j, hj⟩ := fixLoop_is_attempt g 3 0 s
  intro c
  unfold fix
  rw [hj]
  exact tryFix_count_le g j s h c

theorem c5_repeat_limit_amended_witness :
    "AAAdef1#".data.length ≤ 144 ∧ (fix g0 "AAAdef1#".data).fixed.count 'A' ≤ 2 :=
  ⟨by decide, c5_repeat_limit_amended g0 "AAAdef1#".data (by decide) 'A'⟩

/-- C6, amended: every character of `generate(n).password` lies in the
union of the four class alphabets, and so does every character of
`fix(s).fixed` provided `s` has length at most 144; on longer inputs the
pool can be exhausted, letting an Unknown-class character survive
phase 4. -/
theorem c6_closure_amended (g : Rng) (n : Int) (s : JsStr) (h : s.length ≤ 144) :
    (∀ c ∈ (generate g n).password, c ∈ fullPool) ∧
      (∀ c ∈ (fix g s).fixed, c ∈ fullPool) := by
  constructor
  · have hb := clampLength_bounds n
    have hgen : generate g n = ⟨(genAttempt g 0 (clampLength n)).1, true⟩ := by
      unfold generate
      rw [show (10 : Nat) = 9 + 1 from rfl, generateLoop_succ,
        if_pos (genAttempt_valid g 0 (clampLength n) hb.1 hb.2)]
    rw [hgen]
    exact (genAttempt_props g 0 (clampLength n) hb.1 hb.2).2.2.1
  · obtain ⟨j, hj⟩ := fixLoop_is_attempt g 3 0 s
    unfold fix
    rw [hj]
    exact fun c hc => tryFix_pool_closed g j s h c hc

theorem c6_closure_amended_witness :
    "Ab1#".data.length ≤ 144 ∧
      ((∀ c ∈ (generate g0 24).password, c ∈ fullPool) ∧
        (∀ c ∈ (fix g0 "Ab1#".data).fixed, c ∈ fullPool)) :=
  ⟨by decide, c6_closure_amended g0 24 "Ab1#".data (by decide)⟩

/-- C9, amended: for inputs of length at most 144, a single attempt's
phase 1 behaves exactly as described — for every character with count
above 2 it replaces the `count - 2` rightmost occurrences, preferring a
same-class substitute with count below 2 and falling back to any class
only when that pool is exhausted, updating counts after every
substitution; on longer inputs the picks fail and phase 1 replaces
nothing. -/
theorem c9_phase1_amended (g : Rng) (s : JsStr) (k : Nat) (h : s.length ≤ 144) :
    phase1ClaimCheck s (phase1 g s (initState s) k).1.changes = true := by
  have hsync : CountsSync (initState s).counts (initState s).chars :=
    fun c => countChars_eq_count s c
  have hvs : ∀ p ∈ violatorsExcess s, (initState s).counts p.1 = p.2 + 2 ∧ 1 ≤ p.2 := by
    intro p hp
    rcases p with ⟨pc, pe⟩
    obtain ⟨-, hgt, hex⟩ := mem_violatorsExcess.mp hp
    exact ⟨show countChars s pc = pe + 2 by omega, by omega⟩
  obtain ⟨-, -, -, -, delta, hd1, hd2, -⟩ := phase1Go_master g (violatorsExcess s)
    (initState s) k hsync h hvs (violators_fst_nodup s)
  have hch : (phase1 g s (initState s) k).1.changes = delta := by
    show (phase1Go g (violatorsExcess s) (initState s) k).1.changes = delta
    rw [hd1]
    show ([] : List Change) ++ delta = delta
    rw [List.nil_append]
  rw [hch]
  have hrun := hd2 []
  rw [List.append_nil] at hrun
  have hrun' : phase1ClaimGo (violatorsExcess s) s (countChars s) delta =
      decide (([] : List Change) = []) := hrun
  show phase1ClaimGo (violatorsExcess s) s (countChars s) delta = true
  exact hrun'.trans (by decide)

theorem c9_phase1_amended_witness :
    "AAAdef1#".data.length ≤ 144 ∧
      phase1ClaimCheck "AAAdef1#".data
        (phase1 g0 "AAAdef1#".data (initState "AAAdef1#".data) 0).1.changes = true :=
  ⟨by decide, c9_phase1_amended g0 "AAAdef1#".data 0 (by decide)⟩

/-- C10, amended: for every nonempty `s`, replaying `fix(s).changes` in
order against `s` — substituting at `index` when `from` is one character
(the position holds `from` at that moment) and appending when `from` is
`''` at `index` equal to the current length — reproduces `fix(s).fixed`;
`fix` never deletes characters and `original` is `s`.  On the empty string
the first change is recorded at index `-1` with `from` undefined (a JS
array property write), which no replay can apply. -/
theorem c10_replay_amended (g : Rng) (s : JsStr) (hne : s ≠ []) :
    (fix g s).original = s ∧
      replaySpec s (fix g s).changes = some (fix g s).fixed ∧
      s.length ≤ (fix g s).fixed.length := by
  obtain ⟨j, hj⟩ := fixLoop_is_attempt g 3 0 s
  unfold fix
  rw [hj]
  exact tryFix_replay g j s hne

theorem c10_replay_amended_witness :
    "Ab1#".data ≠ [] ∧
      ((fix g0 "Ab1#".data).original = "Ab1#".data ∧
        replaySpec "Ab1#".data (fix g0 "Ab1#".data).changes =
          some (fix g0 "Ab1#".data).fixed ∧
        "Ab1#".data.length ≤ (fix g0 "Ab1#".data).fixed.length) :=
  ⟨by decide, c10_replay_amended g0 "Ab1#".data (by decide)⟩

/-- C10's counterexample: on the empty string the first recorded change
has index `-1` and an undefined `from` field, so replaying the change
list does not reproduce the fixed string. -/
theorem c10_counterexample :
    replaySpec [] (fix g0 []).changes ≠ some (fix g0 []).fixed := by
  obtain ⟨j, hj⟩ := fixLoop_is_attempt g0 3 0 []
  have hfix : fix g0 [] = (tryFix g0 j []).1 := by
    unfold fix
    rw [hj]
  obtain ⟨r, rest, hch⟩ := tryFix_empty_first g0 j
  have hnone : applyChangeSpec ([] : JsStr) ⟨-1, JsVal.undef, r⟩ = none := rfl
  rw [hfix, hch, replaySpec_cons_none hnone rest]
  simp

end PasswordPolicy
